import Mathlib

/-!
Shallow embedding of the duplicate-file detection engine `ddh`
(src/src/lib.rs) together with proofs about its pipeline.

Bytes are modelled as natural numbers, paths as lists of path-component
identifiers, and the 128-bit SipHash as an abstract function
`H : List Nat → Nat` applied to the exact byte sequence the code feeds
to the hasher (its transcript).  A panic in the Rust code is modelled by
`Option`: `none` is a crash of the surrounding computation.
-/

namespace DDH

/-- `BLOCK_SIZE` from src/src/lib.rs line 18. -/
def BLOCK_SIZE : Nat := 4096

/-- Length of the read buffer `[0; BLOCK_SIZE * 4]` from
`Fileinfo::generate_hash` (src/src/lib.rs line 157): 16 KiB. -/
def BUF_LEN : Nat := BLOCK_SIZE * 4

/-- A file-system path, as a list of abstract path components. -/
abbrev Path := List Nat

/-- `HashMode` from src/src/lib.rs lines 20-24. -/
inductive HashMode where
  | Full
  | Partial
deriving DecidableEq

/-- `Fileinfo` from src/src/lib.rs lines 32-38, with the fields in source
order: optional full hash, optional partial hash, length, path list. -/
structure Fileinfo where
  full_hash : Option Nat
  partial_hash : Option Nat
  file_length : Nat
  file_paths : List Path
deriving DecidableEq

/-- The error cause attached to a failure record: either a plain I/O error
(`fs::metadata`, `read_dir` failure) or the "Path is symlink" error built at
src/src/lib.rs line 260. -/
inductive FsError where
  | ioError
  | pathIsSymlink
deriving DecidableEq

/-- `ChannelPackage` from src/src/lib.rs lines 26-29. -/
inductive ChannelPackage where
  | Success (info : Fileinfo)
  | Fail (path : Path) (err : FsError)
deriving DecidableEq

/-- A node of the modelled file system: a regular file with its byte
content, a symbolic link (possibly broken) whose target is the linked
node, or a directory with named entries and a flag telling whether
`read_dir` succeeds on it. -/
inductive FNode where
  | file (content : List Nat)
  | symlink (target : Option FNode)
  | dir (readable : Bool) (entries : List (Nat × FNode))

/-- What the hasher sees of a file at hash time, independently of the
traversal-time tree: its content, whether `File::open` succeeds, and
whether `read` calls succeed.  When `openOk` is false the open at
src/src/lib.rs line 146 fails; when `readOk` is false the first `read`
at line 159 returns an error. -/
structure FileData where
  content : List Nat
  openOk : Bool
  readOk : Bool

/-- Model of `std::fs::metadata`, which follows symbolic links: resolves
symlink chains to the final node, failing (`none`) on a broken link.  The
node returned is never itself a symlink, exactly as the metadata returned
by `fs::metadata` never reports `is_symlink()`. -/
def metadataOf : FNode → Option FNode
  | .symlink none => none
  | .symlink (some n) => metadataOf n
  | .file c => some (.file c)
  | .dir r es => some (.dir r es)

/-- `file_type().is_symlink()` on a node's own (un-followed) metadata. -/
def FNode.isSymlinkT : FNode → Bool
  | .symlink _ => true
  | _ => false

/-- `file_type().is_file()` on a node's own metadata. -/
def FNode.isFileT : FNode → Bool
  | .file _ => true
  | _ => false

/-- `metadata().len()` of a node: the byte length of a regular file. -/
def FNode.lenOf : FNode → Nat
  | .file c => c.length
  | _ => 0

/-- `traverse_and_spawn` from src/src/lib.rs lines 247-313, with the
packages sent on the channel collected into a list (the channel order is
unspecified in the source; this model fixes one order, and all theorems
below only use membership).  The extra `fuel` argument bounds the
recursion depth so that the definition is structural; every theorem holds
for every fuel value, and concrete evaluations use enough fuel for the
given tree.  Step by step:
the `fs::metadata` call (line 248) is `metadataOf`, failing on broken
links; the `is_symlink` check on the followed metadata (line 258) is kept
verbatim even though `metadataOf` never returns a symlink; a regular file
is emitted as a `Success` with its length and the current path (lines
265-275); a directory has its entries partitioned by
`symlink_metadata().file_type().is_file()` (lines 284-291), the file
entries emitted directly (lines 292-300) and everything else recursed
into (lines 301-304); an unreadable directory produces a `Fail`
(lines 306-310). -/
def traverse_and_spawn : Nat → Path → FNode → List ChannelPackage
  | 0, _, _ => []
  | fuel+1, p, node =>
    match metadataOf node with
    | none => [.Fail p .ioError]
    | some meta =>
      if meta.isSymlinkT then [.Fail p .pathIsSymlink]
      else if meta.isFileT then [.Success ⟨none, none, meta.lenOf, [p]⟩]
      else
        match meta with
        | .dir readable entries =>
          if readable then
            (entries.filter (fun e => e.2.isFileT)).map
              (fun e => .Success ⟨none, none, e.2.lenOf, [p ++ [e.1]]⟩)
            ++ (entries.filter (fun e => !e.2.isFileT)).flatMap
              (fun e => traverse_and_spawn fuel (p ++ [e.1]) e.2)
          else [.Fail p .ioError]
        | _ => []

/-- One iteration of the read loop of `Fileinfo::generate_hash`
(src/src/lib.rs lines 158-170): each successful `read` of `n > 0` bytes
overwrites the first `n` bytes of the 16 KiB buffer and then feeds the
whole buffer — including the bytes beyond `n` left from earlier
iterations or from the zero initialisation — to the hasher
(`hasher.write(&hash_buffer)`, line 160).  A read on a regular file
returns `min(remaining, BUF_LEN)` bytes.  The result is the transcript:
the concatenation of all byte sequences written to the hasher.  In
`Partial` mode the function returns after the first write (line 168).
`fuel` bounds the number of loop iterations; each iteration consumes
`BUF_LEN ≥ 1` bytes of the remaining content, so `fuel = content.length`
always suffices. -/
def hashLoopAux : Nat → HashMode → List Nat → List Nat → List Nat
  | 0, _, _, _ => []
  | fuel+1, mode, rest, buf =>
    if rest.length = 0 then []
    else
      match mode with
      | .Partial => rest.take BUF_LEN ++ buf.drop (min rest.length BUF_LEN)
      | .Full =>
        (rest.take BUF_LEN ++ buf.drop (min rest.length BUF_LEN))
        ++ hashLoopAux fuel .Full (rest.drop BUF_LEN)
            (rest.take BUF_LEN ++ buf.drop (min rest.length BUF_LEN))

/-- The byte sequence fed to the hasher when hashing a file with content
`c` in the given mode, starting from the zero-initialised buffer
`[0; BLOCK_SIZE * 4]` of src/src/lib.rs line 157. -/
def transcript (mode : HashMode) (c : List Nat) : List Nat :=
  hashLoopAux c.length mode c (List.replicate BUF_LEN 0)

/-- `Fileinfo::generate_hash` from src/src/lib.rs lines 144-177,
parameterised by the hash function `H` (SipHash-128 in the source) and by
the hash-time file system `read`.  The file opened is the record's first
path (line 147; the source panics when the path list is empty — that case
cannot arise in the pipeline, where every hashed record holds exactly one
path, and is modelled as producing no hash).  A failed open (line 173) or
a failed read (line 162) yields `none`; otherwise the result is `H`
applied to the transcript of the read loop. -/
def generate_hash (H : List Nat → Nat) (read : Path → FileData)
    (f : Fileinfo) (mode : HashMode) : Option Nat :=
  match f.file_paths.head? with
  | none => none
  | some p =>
    let fd := read p
    if fd.openOk then
      if fd.readOk then some (H (transcript mode fd.content)) else none
    else none

/-- The partial-hash pass of `differentiate_and_consolidate`
(src/src/lib.rs lines 325-328): every record of the bucket gets
`partial_hash` set to the result of `generate_hash(HashMode::Partial)`. -/
def partialPhase (H : List Nat → Nat) (read : Path → FileData)
    (files : List Fileinfo) : List Fileinfo :=
  files.map fun f => { f with partial_hash := generate_hash H read f .Partial }

/-- The partial-hash values present in a bucket. -/
def partialValues (files : List Fileinfo) : List Nat :=
  files.filterMap (·.partial_hash)

/-- The full-hash decision for one record of a bucket with partial-hash
values `vals` (src/src/lib.rs lines 335-352): the source tallies each
partial-hash value in a map (first sight inserts 0, each further sight
adds 1, lines 335-341), keeps the values with a positive count — exactly
the values occurring at least twice — as `dedupe_hashes` (lines 342-346),
and runs the full-hash pass on the records whose partial hash is in that
list (lines 347-352).  Records left unflagged keep their fields.  The
`unwrap` of line 348 is modelled by the `none` branch, which is
unreachable because the caller has already crashed (see
`differentiate_and_consolidate`) when any partial hash is absent. -/
def fullStep (H : List Nat → Nat) (read : Path → FileData)
    (vals : List Nat) (f : Fileinfo) : Fileinfo :=
  match f.partial_hash with
  | some v =>
    if 2 ≤ vals.count v then { f with full_hash := generate_hash H read f .Full }
    else f
  | none => f

/-- The full-hash pass over a bucket (src/src/lib.rs lines 347-352). -/
def fullPhase (H : List Nat → Nat) (read : Path → FileData)
    (files : List Fileinfo) : List Fileinfo :=
  files.map (fullStep H read (partialValues files))

/-- The consolidation key of a record: the pair of its optional partial
and full hashes, as used by the cache of `dedupe`
(src/src/lib.rs line 360). -/
def dkey (f : Fileinfo) : Option Nat × Option Nat :=
  (f.partial_hash, f.full_hash)

/-- `dedupe` from src/src/lib.rs lines 359-375.  The source walks the
list keeping, in a map keyed by `dkey`, a reference to the first record
seen with each key; every later record with the same key has its paths
appended to that first record and drained from itself, and the final
`retain` (line 373) drops the records whose path list ended up empty.
The surviving records are therefore exactly the first occurrence of each
key, carrying its own paths followed by the paths of all later records
with the same key in list order, kept only when that combined path list
is non-empty.  The recursion is phrased with `fuel` (the list length
suffices) so that it is structural: the head of the list absorbs the
paths of all later records with its key, and the remaining records are
processed recursively. -/
def sameKey (f : Fileinfo) (l : List Fileinfo) : List Fileinfo :=
  l.filter fun g => decide (dkey g = dkey f)

/-- The records of `l` whose key differs from the key of `f`. -/
def diffKey (f : Fileinfo) (l : List Fileinfo) : List Fileinfo :=
  l.filter fun g => !decide (dkey g = dkey f)

/-- The survivor built from the first record with a key: its own paths
followed by the paths of every later record with the same key, in order
(the repeated `append` of src/src/lib.rs lines 366-370). -/
def mergeInto (f : Fileinfo) (rest : List Fileinfo) : Fileinfo :=
  { f with file_paths :=
      f.file_paths ++ (sameKey f rest).flatMap (·.file_paths) }

def dedupeAux : Nat → List Fileinfo → List Fileinfo
  | 0, _ => []
  | _+1, [] => []
  | fuel+1, f :: rest =>
    (if (mergeInto f rest).file_paths.isEmpty then [] else [mergeInto f rest])
    ++ dedupeAux fuel (diffKey f rest)

/-- `dedupe` entry point (src/src/lib.rs line 359). -/
def dedupe (files : List Fileinfo) : List Fileinfo :=
  dedupeAux files.length files

/-- `differentiate_and_consolidate` from src/src/lib.rs lines 315-357,
returning `none` where the source panics.  A zero-length bucket is
returned unchanged (lines 316-318); an empty bucket panics (lines
319-321, "Invalid length vector"); a singleton bucket is returned
unchanged (line 323); a larger bucket gets the partial-hash pass, then
either — for lengths up to `BLOCK_SIZE` — the partial hash copied into
the full-hash field of every record (lines 329-334), or the tally of
partial-hash values followed by the full-hash pass on the recurring ones
(lines 335-352).  The tally loop unwraps every record's partial hash
(line 337), so a bucket in that branch containing a record with an
absent partial hash panics. -/
def differentiate_and_consolidate (H : List Nat → Nat) (read : Path → FileData)
    (file_length : Nat) (files : List Fileinfo) : Option (List Fileinfo) :=
  if file_length = 0 then some files
  else if files.length = 0 then none
  else if files.length = 1 then some files
  else
    let files1 := partialPhase H read files
    if file_length ≤ BLOCK_SIZE then
      some (dedupe (files1.map fun f => { f with full_hash := f.partial_hash }))
    else
      if files1.any (fun f => f.partial_hash.isNone) then none
      else some (dedupe (fullPhase H read files1))

/-- The packages sent while traversing all root directories
(src/src/lib.rs lines 221-224). -/
def allPackages (fuel : Nat) (roots : List (Path × FNode)) : List ChannelPackage :=
  roots.flatMap fun r => traverse_and_spawn fuel r.1 r.2

/-- The `Fileinfo` payloads of the success packages of a package list
(the `ChannelPackage::Success` arm of src/src/lib.rs lines 229-234). -/
def successPackages (pkgs : List ChannelPackage) : List Fileinfo :=
  pkgs.filterMap fun pkg =>
    match pkg with
    | .Success f => some f
    | .Fail _ _ => none

/-- The error pairs of a package list (the `ChannelPackage::Fail` arm of
src/src/lib.rs lines 235-237). -/
def failPackages (pkgs : List ChannelPackage) : List (Path × FsError) :=
  pkgs.filterMap fun pkg =>
    match pkg with
    | .Success _ => none
    | .Fail p e => some (p, e)

/-- The distinct file lengths of a success list: the key set of the
`files_of_lengths` map of src/src/lib.rs line 225 (a hash map, so its
iteration order is arbitrary; this model fixes one order). -/
def bucketLengths (files : List Fileinfo) : List Nat :=
  (files.map (·.file_length)).dedup

/-- The length bucket of `l`: the records pushed under key `l` in
`files_of_lengths`, in arrival order (src/src/lib.rs lines 230-233). -/
def bucketOf (files : List Fileinfo) (l : Nat) : List Fileinfo :=
  files.filter fun f => decide (f.file_length = l)

/-- Collects the per-bucket results, propagating a panic (`none`) of any
bucket, and concatenates them (the `flatten` of src/src/lib.rs
line 242). -/
def optFlatten : List (Option (List Fileinfo)) → Option (List Fileinfo)
  | [] => some []
  | none :: _ => none
  | some xs :: rest => (optFlatten rest).map (fun ys => xs ++ ys)

/-- `deduplicate_dirs` from src/src/lib.rs lines 220-245: traverse all
roots, split the channel into successes and failures, bucket the
successes by length, differentiate and consolidate each bucket, and
return the surviving records together with the error list. -/
def deduplicate_dirs (H : List Nat → Nat) (read : Path → FileData)
    (fuel : Nat) (roots : List (Path × FNode)) :
    Option (List Fileinfo × List (Path × FsError)) :=
  let pkgs := allPackages fuel roots
  let succ := successPackages pkgs
  (optFlatten ((bucketLengths succ).map
      (fun l => differentiate_and_consolidate H read l (bucketOf succ l)))).map
    (fun recs => (recs, failPackages pkgs))

/-- Modelled from the spec: the ignore-root and minimum-size filtering of
the walker.  The `deduplicate_dirs` under src/src/lib.rs takes only the
search directories — the caller-supplied canonicalized ignore roots and
the minimum file size of spec §4.1/§6 have no counterpart in that code —
so the filtering walker is modelled from the spec's words: paths are
taken as already canonical; if any ignored root is a prefix of the
current path the whole subtree is pruned with no emission; symlink
metadata is read without following the link and a symlink yields a
skip failure; a regular file is emitted only when its length is at least
`min_size` (0 meaning no floor), an undersized file being omitted
silently; a directory is recursed into entry by entry, an unreadable one
reporting a per-path failure. -/
def traverse_filtered : Nat → List Path → Nat → Path → FNode → List ChannelPackage
  | 0, _, _, _, _ => []
  | fuel+1, ignored, min_size, p, node =>
    if ignored.any (fun g => decide (g <+: p)) then []
    else if node.isSymlinkT then [.Fail p .pathIsSymlink]
    else
      match node with
      | .file c =>
        if min_size ≤ c.length then [.Success ⟨none, none, c.length, [p]⟩] else []
      | .dir readable entries =>
        if readable then
          entries.flatMap fun e => traverse_filtered fuel ignored min_size (p ++ [e.1]) e.2
        else [.Fail p .ioError]
      | .symlink _ => []

/-- Modelled from the spec: `deduplicate_dirs` with the caller-supplied
ignore roots and minimum size of spec §6 threaded to the walker; the
downstream pipeline is the one of src/src/lib.rs lines 225-244. -/
def deduplicate_dirs_filtered (H : List Nat → Nat) (read : Path → FileData)
    (fuel : Nat) (ignored : List Path) (min_size : Nat)
    (roots : List (Path × FNode)) :
    Option (List Fileinfo × List (Path × FsError)) :=
  let pkgs := roots.flatMap fun r => traverse_filtered fuel ignored min_size r.1 r.2
  let succ := successPackages pkgs
  (optFlatten ((bucketLengths succ).map
      (fun l => differentiate_and_consolidate H read l (bucketOf succ l)))).map
    (fun recs => (recs, failPackages pkgs))

/-- How many times `differentiate_and_consolidate` invokes
`generate_hash` on each record of the bucket — each invocation opens the
record's file and performs one read pass over it.  The list is positional,
parallel to `files`.  Zero-length buckets and singleton buckets perform no
I/O; buckets of length at most `BLOCK_SIZE` hash every member once (the
partial pass, lines 325-328 of src/src/lib.rs, after which the partial
hash is copied, lines 329-334); larger buckets hash every member once and
the members whose partial-hash value recurs a second time (the full pass,
lines 347-352). -/
def hashCalls (H : List Nat → Nat) (read : Path → FileData)
    (file_length : Nat) (files : List Fileinfo) : List Nat :=
  if file_length = 0 then files.map fun _ => 0
  else if files.length ≤ 1 then files.map fun _ => 0
  else if file_length ≤ BLOCK_SIZE then files.map fun _ => 1
  else
    (partialPhase H read files).map fun f =>
      match f.partial_hash with
      | some v =>
        if 2 ≤ (partialValues (partialPhase H read files)).count v then 2 else 1
      | none => 1

/-- An injective stand-in for the 128-bit hash, used to instantiate
collision-freedom hypotheses at concrete inputs. -/
def encL : List Nat → Nat
  | [] => 0
  | a :: t => Nat.pair a (encL t) + 1

/-- A trivially collision-prone hash, used where a concrete evaluation
does not rely on hash quality. -/
def hashZero : List Nat → Nat := fun _ => 0

/-- All paths referenced by a list of records. -/
def pathsOf (files : List Fileinfo) : List Path :=
  files.flatMap (·.file_paths)

/-- The hash value computed for the file behind path `p`: what
`generate_hash` yields for any record whose first path is `p`. -/
def hashOf (H : List Nat → Nat) (read : Path → FileData)
    (p : Path) (mode : HashMode) : Option Nat :=
  if (read p).openOk then
    if (read p).readOk then some (H (transcript mode (read p).content))
    else none
  else none

/-- The consolidation key that every record of a length-`l` bucket holding
path `p` ends up with, as a function of the hash-time file system only:
used to show that a path determines the key of its surviving record. -/
def keyAt (H : List Nat → Nat) (read : Path → FileData)
    (l : Nat) (files : List Fileinfo) (p : Path) : Option Nat × Option Nat :=
  if l = 0 then (none, none)
  else if files.length = 1 then (none, none)
  else if l ≤ BLOCK_SIZE then (hashOf H read p .Partial, hashOf H read p .Partial)
  else (hashOf H read p .Partial,
    match hashOf H read p .Partial with
    | some v =>
      if 2 ≤ (partialValues (partialPhase H read files)).count v then
        hashOf H read p .Full
      else none
    | none => none)

/-- Shape of a record as emitted by the walker: no hashes, one path. -/
def walkerShape (f : Fileinfo) : Prop :=
  f.partial_hash = none ∧ f.full_hash = none ∧ ∃ q, f.file_paths = [q]

/-- The success records of the whole traversal. -/
def successesOf (fuel : Nat) (roots : List (Path × FNode)) : List Fileinfo :=
  successPackages (allPackages fuel roots)

/-- The packages emitted by the filtered walker over all roots. -/
def packagesFiltered (fuel : Nat) (ignored : List Path) (min_size : Nat)
    (roots : List (Path × FNode)) : List ChannelPackage :=
  roots.flatMap fun r => traverse_filtered fuel ignored min_size r.1 r.2

/-- Concrete file system objects used in the closed theorems below. -/
def readEmpty : Path → FileData := fun _ => ⟨[], true, true⟩

def rootsTwoEmpty : List (Path × FNode) :=
  [([0], .dir true [(0, .file []), (1, .file [])])]

def recC9w : Fileinfo := ⟨none, none, 1, [[0]]⟩

/-- A hash-time file system on which neither file can be opened. -/
def readUnreadable : Path → FileData := fun p =>
  if p = [0] then ⟨[1], false, true⟩ else ⟨[2], false, true⟩

def filesTwoUnreadable : List Fileinfo :=
  [⟨none, none, 1, [[0]]⟩, ⟨none, none, 1, [[1]]⟩]

/-- Two identical readable files of 8192 bytes: more than `BLOCK_SIZE`
but within the 16 KiB partial-read buffer. -/
def readRep8192 : Path → FileData := fun _ => ⟨List.replicate 8192 1, true, true⟩

def filesTwo8192 : List Fileinfo :=
  [⟨none, none, 8192, [[0]]⟩, ⟨none, none, 8192, [[1]]⟩]

def readTen : Path → FileData := fun _ => ⟨List.replicate 10 1, true, true⟩

def filesTwoTen : List Fileinfo :=
  [⟨none, none, 10, [[0]]⟩, ⟨none, none, 10, [[1]]⟩]

def readOneByte : Path → FileData := fun _ => ⟨[1], true, true⟩

def recOneByte : Fileinfo := ⟨none, none, 1, [[0]]⟩

/-- Hash stand-in returning the first byte fed to the hasher. -/
def headHash : List Nat → Nat := fun t => t.headD 0

def readHeads : Path → FileData := fun p =>
  if p = [0] then ⟨[1], true, true⟩ else ⟨[2], true, true⟩

def filesTwo5000 : List Fileinfo :=
  [⟨none, none, 5000, [[0]]⟩, ⟨none, none, 5000, [[1]]⟩]

def readOneTwoThree : Path → FileData := fun _ => ⟨[1, 2, 3], true, true⟩

def rootsFiltered : List (Path × FNode) :=
  [([0], .dir true [(0, .file [1, 2, 3]), (1, .file [9]), (2, .symlink none),
                    (3, .dir true [(0, .file [5, 5, 5])])])]

def readC1x : Path → FileData := fun p =>
  if p = [0] then ⟨[1], false, true⟩ else ⟨[2], false, true⟩

def rootsC1x : List (Path × FNode) := [([0], .file [1]), ([1], .file [2])]

def readC1w : Path → FileData := fun p =>
  if p = [0, 2] then ⟨[4], true, true⟩ else ⟨[3], true, true⟩

def rootsC1w : List (Path × FNode) :=
  [([0], .dir true [(0, .file [3]), (1, .file [3]), (2, .file [4])])]

def readC2x : Path → FileData := fun p =>
  if p = [0, 0] then ⟨[3], true, true⟩ else ⟨[4], true, true⟩

def rootsC2x : List (Path × FNode) :=
  [([0], .dir true [(0, .file [3]), (1, .file [4])])]

theorem encL_injective : Function.Injective encL := by
  intro a
  induction a with
  | nil =>
    intro b h
    cases b with
    | nil => rfl
    | cons x t => simp [encL] at h
  | cons x t ih =>
    intro b h
    cases b with
    | nil => simp [encL] at h
    | cons y s =>
      simp only [encL, Nat.add_right_cancel_iff] at h
      have h2 := Nat.pair_eq_pair.mp h
      rw [h2.1, ih h2.2]

/-! ### Transcript lemmas -/

theorem hashLoopAux_nil (fuel : Nat) (mode : HashMode) (buf : List Nat) :
    hashLoopAux fuel mode [] buf = [] := by
  cases fuel <;> simp [hashLoopAux]

theorem bufLen_pos : 0 < BUF_LEN := by decide

/-- Closed form of the partial-mode transcript: the leading block of the
file, padded with the zeros that remain in the untouched part of the read
buffer — the whole 16 KiB buffer is hashed, not only the bytes read. -/
theorem transcript_partial_eq {c : List Nat} (hc : c ≠ []) :
    transcript .Partial c
      = c.take BUF_LEN ++ List.replicate (BUF_LEN - min c.length BUF_LEN) 0 := by
  obtain ⟨k, hk⟩ : ∃ k, c.length = k + 1 := by
    cases hcl : c.length with
    | zero => exact absurd (List.length_eq_zero.mp hcl) hc
    | succ k => exact ⟨k, rfl⟩
  unfold transcript
  rw [hk]
  simp [hashLoopAux, hk, List.drop_replicate]

/-- A file that fits in a single buffer load has identical partial-mode
and full-mode transcripts: the second read returns 0 bytes and the loop
exits without another write. -/
theorem transcript_full_of_le {c : List Nat} (hle : c.length ≤ BUF_LEN) :
    transcript .Full c = transcript .Partial c := by
  cases hcl : c.length with
  | zero =>
    rw [List.length_eq_zero.mp hcl]
    simp [transcript, hashLoopAux_nil]
  | succ k =>
    have hdrop : c.drop BUF_LEN = [] := by
      apply List.drop_eq_nil_of_le
      exact hle
    unfold transcript
    rw [hcl]
    simp [hashLoopAux, hdrop, hashLoopAux_nil]

theorem transcript_partial_length {c : List Nat} (hc : c ≠ []) :
    (transcript .Partial c).length = BUF_LEN := by
  rw [transcript_partial_eq hc]
  simp only [List.length_append, List.length_take, List.length_replicate]
  omega

/-- Two contents of the same length at most `BUF_LEN` with the same
partial transcript are equal. -/
theorem transcript_partial_inj {c1 c2 : List Nat} (hlen : c1.length = c2.length)
    (hle : c1.length ≤ BUF_LEN)
    (h : transcript .Partial c1 = transcript .Partial c2) : c1 = c2 := by
  by_cases h0 : c1.length = 0
  · have e1 : c1 = [] := List.length_eq_zero.mp h0
    have e2 : c2 = [] := List.length_eq_zero.mp (by omega)
    rw [e1, e2]
  · have hc1 : c1 ≠ [] := fun hnil => h0 (by simp [hnil])
    have hc2 : c2 ≠ [] := fun hnil => h0 (by rw [hlen, hnil]; rfl)
    rw [transcript_partial_eq hc1, transcript_partial_eq hc2,
      List.take_of_length_le hle, List.take_of_length_le (hlen ▸ hle)] at h
    exact (List.append_inj h hlen).1

theorem hashLoopAux_full_inj : ∀ (fuel : Nat) (c1 c2 buf : List Nat),
    c1.length = c2.length → c1.length ≤ fuel → buf.length = BUF_LEN →
    hashLoopAux fuel .Full c1 buf = hashLoopAux fuel .Full c2 buf → c1 = c2 := by
  intro fuel
  induction fuel with
  | zero =>
    intro c1 c2 buf hlen hle _ _
    have e1 : c1 = [] := List.length_eq_zero.mp (Nat.le_zero.mp hle)
    have e2 : c2 = [] := List.length_eq_zero.mp (by omega)
    rw [e1, e2]
  | succ fuel ih =>
    intro c1 c2 buf hlen hle hbuf h
    by_cases h0 : c1.length = 0
    · have e1 : c1 = [] := List.length_eq_zero.mp h0
      have e2 : c2 = [] := List.length_eq_zero.mp (by omega)
      rw [e1, e2]
    · have h02 : ¬c2.length = 0 := hlen ▸ h0
      simp only [hashLoopAux, h0, h02, if_false, if_neg h0, if_neg h02] at h
      have hl1 : (c1.take BUF_LEN ++ buf.drop (min c1.length BUF_LEN)).length
          = BUF_LEN := by
        simp only [List.length_append, List.length_take, List.length_drop, hbuf]
        omega
      have hl2 : (c2.take BUF_LEN ++ buf.drop (min c2.length BUF_LEN)).length
          = BUF_LEN := by
        simp only [List.length_append, List.length_take, List.length_drop, hbuf]
        omega
      obtain ⟨hbufeq, hrec⟩ := List.append_inj h (by rw [hl1, hl2])
      have htake : c1.take BUF_LEN = c2.take BUF_LEN :=
        (List.append_inj hbufeq (by simp [List.length_take, hlen])).1
      rw [← hbufeq] at hrec
      have hdl : (c1.drop BUF_LEN).length = (c2.drop BUF_LEN).length := by
        simp [hlen]
      have hfl : (c1.drop BUF_LEN).length ≤ fuel := by
        have := bufLen_pos
        simp only [List.length_drop]
        omega
      have hdeq := ih (c1.drop BUF_LEN) (c2.drop BUF_LEN)
        (c1.take BUF_LEN ++ buf.drop (min c1.length BUF_LEN)) hdl hfl hl1 hrec
      conv_lhs => rw [← List.take_append_drop BUF_LEN c1]
      conv_rhs => rw [← List.take_append_drop BUF_LEN c2]
      rw [htake, hdeq]

/-- Two contents of the same length with the same full transcript are
equal: within one length bucket the full transcript separates distinct
contents. -/
theorem transcript_full_inj {c1 c2 : List Nat} (hlen : c1.length = c2.length)
    (h : transcript .Full c1 = transcript .Full c2) : c1 = c2 := by
  unfold transcript at h
  rw [hlen] at h
  exact hashLoopAux_full_inj c2.length c1 c2 (List.replicate BUF_LEN 0) hlen
    (le_of_eq hlen) (List.length_replicate _ _) h

/-! ### Consolidation lemmas -/

theorem pathsOf_append (a b : List Fileinfo) :
    pathsOf (a ++ b) = pathsOf a ++ pathsOf b := by
  simp [pathsOf]

theorem pathsOf_cons (f : Fileinfo) (rest : List Fileinfo) :
    pathsOf (f :: rest) = f.file_paths ++ pathsOf rest := by
  simp [pathsOf]

theorem dedupeAux_cons (fuel : Nat) (f : Fileinfo) (rest : List Fileinfo) :
    dedupeAux (fuel+1) (f :: rest)
      = (if (mergeInto f rest).file_paths.isEmpty then [] else [mergeInto f rest])
        ++ dedupeAux fuel (diffKey f rest) := rfl

theorem mergeInto_paths (f : Fileinfo) (rest : List Fileinfo) :
    (mergeInto f rest).file_paths = f.file_paths ++ pathsOf (sameKey f rest) := rfl

theorem mergeInto_partial (f : Fileinfo) (rest : List Fileinfo) :
    (mergeInto f rest).partial_hash = f.partial_hash := rfl

theorem mergeInto_full (f : Fileinfo) (rest : List Fileinfo) :
    (mergeInto f rest).full_hash = f.full_hash := rfl

theorem mergeInto_length (f : Fileinfo) (rest : List Fileinfo) :
    (mergeInto f rest).file_length = f.file_length := rfl

theorem dkey_mergeInto (f : Fileinfo) (rest : List Fileinfo) :
    dkey (mergeInto f rest) = dkey f := rfl

theorem diffKey_length_le (f : Fileinfo) (rest : List Fileinfo) :
    (diffKey f rest).length ≤ rest.length :=
  List.length_filter_le _ _

theorem mem_sameKey {f g : Fileinfo} {rest : List Fileinfo} (h : g ∈ sameKey f rest) :
    g ∈ rest ∧ dkey g = dkey f := by
  simp only [sameKey, List.mem_filter, decide_eq_true_eq] at h
  exact h

theorem mem_diffKey {f g : Fileinfo} {rest : List Fileinfo} (h : g ∈ diffKey f rest) :
    g ∈ rest ∧ dkey g ≠ dkey f := by
  simp only [diffKey, List.mem_filter, Bool.not_eq_eq_eq_not, Bool.not_true,
    decide_eq_false_iff_not] at h
  exact h

theorem sameKey_mem {f g : Fileinfo} {rest : List Fileinfo} (hg : g ∈ rest)
    (hk : dkey g = dkey f) : g ∈ sameKey f rest := by
  simp only [sameKey, List.mem_filter, decide_eq_true_eq]
  exact ⟨hg, hk⟩

theorem diffKey_mem {f g : Fileinfo} {rest : List Fileinfo} (hg : g ∈ rest)
    (hk : dkey g ≠ dkey f) : g ∈ diffKey f rest := by
  simp only [diffKey, List.mem_filter, Bool.not_eq_eq_eq_not, Bool.not_true,
    decide_eq_false_iff_not]
  exact ⟨hg, hk⟩

/-- The pieces appearing in one consolidation step cover the tail. -/
theorem sameKey_append_diffKey_perm (f : Fileinfo) (rest : List Fileinfo) :
    (sameKey f rest ++ diffKey f rest).Perm rest :=
  List.filter_append_perm _ rest

/-- Consolidation neither creates nor loses paths: the paths of the
output records are a permutation of the paths of the input records
(src/src/lib.rs lines 359-375 only move paths between records and drop
emptied records). -/
theorem dedupeAux_paths_perm : ∀ (fuel : Nat) (l : List Fileinfo),
    l.length ≤ fuel → (pathsOf (dedupeAux fuel l)).Perm (pathsOf l) := by
  intro fuel
  induction fuel with
  | zero =>
    intro l hl
    rw [List.length_eq_zero.mp (Nat.le_zero.mp hl)]
    exact List.Perm.refl _
  | succ fuel ih =>
    intro l hl
    cases l with
    | nil => exact List.Perm.refl _
    | cons f rest =>
      rw [dedupeAux_cons, pathsOf_append, pathsOf_cons]
      have hif : pathsOf
          (if (mergeInto f rest).file_paths.isEmpty then [] else [mergeInto f rest])
          = (mergeInto f rest).file_paths := by
        by_cases hemp : (mergeInto f rest).file_paths.isEmpty
        · rw [if_pos hemp, List.isEmpty_iff.mp hemp]
          rfl
        · rw [if_neg hemp]
          simp [pathsOf]
      rw [hif, mergeInto_paths, List.append_assoc]
      apply List.Perm.append_left
      have hrec := ih (diffKey f rest)
        (le_trans (diffKey_length_le f rest) (by simpa using Nat.le_of_succ_le_succ hl))
      refine List.Perm.trans (List.Perm.append_left _ hrec) ?_
      rw [← pathsOf_append]
      exact (sameKey_append_diffKey_perm f rest).flatMap_right _

theorem dedupe_paths_perm (l : List Fileinfo) :
    (pathsOf (dedupe l)).Perm (pathsOf l) :=
  dedupeAux_paths_perm l.length l (Nat.le_refl _)

/-- Every output record of consolidation inherits its hash fields and
length from an input record, carries only paths of input records with its
own key, and has a non-empty path list. -/
theorem dedupeAux_origin : ∀ (fuel : Nat) (l : List Fileinfo),
    l.length ≤ fuel → ∀ r ∈ dedupeAux fuel l,
      (∃ f ∈ l, r.partial_hash = f.partial_hash ∧ r.full_hash = f.full_hash
        ∧ r.file_length = f.file_length)
      ∧ (∀ p ∈ r.file_paths, ∃ f ∈ l, p ∈ f.file_paths ∧ dkey f = dkey r)
      ∧ r.file_paths ≠ [] := by
  intro fuel
  induction fuel with
  | zero =>
    intro l hl r hr
    rw [List.length_eq_zero.mp (Nat.le_zero.mp hl)] at hr
    simp [dedupeAux] at hr
  | succ fuel ih =>
    intro l hl r hr
    cases l with
    | nil => simp [dedupeAux] at hr
    | cons f rest =>
      rw [dedupeAux_cons] at hr
      rcases List.mem_append.mp hr with hr1 | hr2
      · by_cases hemp : (mergeInto f rest).file_paths.isEmpty
        · rw [if_pos hemp] at hr1
          simp at hr1
        · rw [if_neg hemp] at hr1
          have hreq : r = mergeInto f rest := by simpa using hr1
          subst hreq
          refine ⟨⟨f, List.mem_cons_self _ _, rfl, rfl, rfl⟩, ?_, ?_⟩
          · intro p hp
            rw [mergeInto_paths] at hp
            rcases List.mem_append.mp hp with hp1 | hp2
            · exact ⟨f, List.mem_cons_self _ _, hp1, rfl⟩
            · rcases List.mem_flatMap.mp hp2 with ⟨g, hg, hpg⟩
              obtain ⟨hgrest, hgkey⟩ := mem_sameKey hg
              exact ⟨g, List.mem_cons_of_mem _ hgrest, hpg,
                by rw [hgkey, dkey_mergeInto]⟩
          · intro hnil
            rw [List.isEmpty_iff] at hemp
            exact hemp hnil
      · have hlen : (diffKey f rest).length ≤ fuel :=
          le_trans (diffKey_length_le f rest) (by simpa using Nat.le_of_succ_le_succ hl)
        obtain ⟨⟨g, hg, hkeys⟩, hpaths, hnil⟩ := ih _ hlen r hr2
        refine ⟨⟨g, List.mem_cons_of_mem _ (mem_diffKey hg).1, hkeys⟩, ?_, hnil⟩
        intro p hp
        obtain ⟨g2, hg2, hpg2, hk2⟩ := hpaths p hp
        exact ⟨g2, List.mem_cons_of_mem _ (mem_diffKey hg2).1, hpg2, hk2⟩

theorem dedupe_origin (l : List Fileinfo) :
    ∀ r ∈ dedupe l,
      (∃ f ∈ l, r.partial_hash = f.partial_hash ∧ r.full_hash = f.full_hash
        ∧ r.file_length = f.file_length)
      ∧ (∀ p ∈ r.file_paths, ∃ f ∈ l, p ∈ f.file_paths ∧ dkey f = dkey r)
      ∧ r.file_paths ≠ [] :=
  dedupeAux_origin l.length l (Nat.le_refl _)

/-- The surviving records of one consolidation run have pairwise distinct
keys: one representative per observed key. -/
theorem dedupeAux_keys_nodup : ∀ (fuel : Nat) (l : List Fileinfo),
    l.length ≤ fuel →
    (dedupeAux fuel l).Pairwise (fun a b => dkey a ≠ dkey b) := by
  intro fuel
  induction fuel with
  | zero => intro l _; simp [dedupeAux]
  | succ fuel ih =>
    intro l hl
    cases l with
    | nil => simp [dedupeAux]
    | cons f rest =>
      rw [dedupeAux_cons]
      have hlen : (diffKey f rest).length ≤ fuel :=
        le_trans (diffKey_length_le f rest) (by simpa using Nat.le_of_succ_le_succ hl)
      apply List.pairwise_append.mpr
      refine ⟨?_, ih _ hlen, ?_⟩
      · by_cases hemp : (mergeInto f rest).file_paths.isEmpty
        · rw [if_pos hemp]; simp
        · rw [if_neg hemp]; simp
      · intro a ha b hb
        have haeq : a = mergeInto f rest := by
          by_cases hemp : (mergeInto f rest).file_paths.isEmpty
          · rw [if_pos hemp] at ha; simp at ha
          · rw [if_neg hemp] at ha; simpa using ha
        obtain ⟨⟨g, hg, hpg, hfg, _⟩, _, _⟩ := dedupeAux_origin fuel _ hlen b hb
        obtain ⟨_, hgk⟩ := mem_diffKey hg
        have hbk : dkey b = dkey g := by
          simp [dkey, hpg, hfg]
        subst haeq
        rw [dkey_mergeInto, hbk]
        exact fun hcontra => hgk hcontra.symm

theorem dedupe_keys_nodup (l : List Fileinfo) :
    (dedupe l).Pairwise (fun a b => dkey a ≠ dkey b) :=
  dedupeAux_keys_nodup l.length l (Nat.le_refl _)

/-- Two input records with the same key contribute their paths to one
common surviving record. -/
theorem dedupeAux_merge : ∀ (fuel : Nat) (l : List Fileinfo), l.length ≤ fuel →
    ∀ f g, f ∈ l → g ∈ l → dkey f = dkey g → f.file_paths ≠ [] →
    ∃ r ∈ dedupeAux fuel l,
      (∀ p ∈ f.file_paths, p ∈ r.file_paths)
      ∧ (∀ p ∈ g.file_paths, p ∈ r.file_paths) := by
  intro fuel
  induction fuel with
  | zero =>
    intro l hl f g hf _ _ _
    rw [List.length_eq_zero.mp (Nat.le_zero.mp hl)] at hf
    simp at hf
  | succ fuel ih =>
    intro l hl f g hf hg hk hne
    cases l with
    | nil => simp at hf
    | cons h rest =>
      rw [dedupeAux_cons]
      have hlen : (diffKey h rest).length ≤ fuel :=
        le_trans (diffKey_length_le h rest) (by simpa using Nat.le_of_succ_le_succ hl)
      by_cases hkh : dkey f = dkey h
      · have hkg : dkey g = dkey h := hk.symm.trans hkh
        have hsubf : ∀ p ∈ f.file_paths, p ∈ (mergeInto h rest).file_paths := by
          intro p hp
          rw [mergeInto_paths]
          rcases List.mem_cons.mp hf with hfh | hfr
          · subst hfh; exact List.mem_append_left _ hp
          · refine List.mem_append_right _ ?_
            exact List.mem_flatMap.mpr ⟨f, sameKey_mem hfr hkh, hp⟩
        have hsubg : ∀ p ∈ g.file_paths, p ∈ (mergeInto h rest).file_paths := by
          intro p hp
          rw [mergeInto_paths]
          rcases List.mem_cons.mp hg with hgh | hgr
          · subst hgh; exact List.mem_append_left _ hp
          · refine List.mem_append_right _ ?_
            exact List.mem_flatMap.mpr ⟨g, sameKey_mem hgr hkg, hp⟩
        obtain ⟨p0, hp0⟩ := List.exists_mem_of_ne_nil f.file_paths hne
        have hpm : p0 ∈ (mergeInto h rest).file_paths := hsubf p0 hp0
        have hemp : ¬(mergeInto h rest).file_paths.isEmpty = true := by
          rw [List.isEmpty_iff]
          intro hh
          rw [hh] at hpm
          simp at hpm
        rw [if_neg hemp]
        exact ⟨mergeInto h rest,
          List.mem_append_left _ (List.mem_singleton.mpr rfl), hsubf, hsubg⟩
      · have hfr : f ∈ rest := by
          rcases List.mem_cons.mp hf with h1 | h2
          · exact absurd (h1 ▸ rfl) hkh
          · exact h2
        have hgkh : dkey g ≠ dkey h := fun e => hkh (hk.trans e)
        have hgr : g ∈ rest := by
          rcases List.mem_cons.mp hg with h1 | h2
          · exact absurd (h1 ▸ rfl) hgkh
          · exact h2
        obtain ⟨r, hr, h1, h2⟩ := ih (diffKey h rest) hlen f g
          (diffKey_mem hfr hkh) (diffKey_mem hgr hgkh) hk hne
        exact ⟨r, List.mem_append_right _ hr, h1, h2⟩

theorem dedupe_merge (l : List Fileinfo) :
    ∀ f g, f ∈ l → g ∈ l → dkey f = dkey g → f.file_paths ≠ [] →
    ∃ r ∈ dedupe l,
      (∀ p ∈ f.file_paths, p ∈ r.file_paths)
      ∧ (∀ p ∈ g.file_paths, p ∈ r.file_paths) :=
  dedupeAux_merge l.length l (Nat.le_refl _)

theorem countP_filter_eq (l : List Fileinfo) (p q : Fileinfo → Bool)
    (h : ∀ a, p a = true → q a = true) :
    (l.filter q).countP p = l.countP p := by
  induction l with
  | nil => simp
  | cons a t ih =>
    by_cases hq : q a
    · by_cases hp : p a <;> simp [hq, hp, List.countP_cons, ih]
    · have hp : ¬p a = true := fun hpa => hq (h a hpa)
      simp [hq, List.countP_cons, hp, ih]

/-- A record whose key occurs exactly once in the input survives
consolidation with exactly its own path list: it is never merged with any
other record. -/
theorem dedupeAux_unique : ∀ (fuel : Nat) (l : List Fileinfo), l.length ≤ fuel →
    ∀ f ∈ l, l.countP (fun g => decide (dkey g = dkey f)) = 1 →
    f.file_paths ≠ [] →
    ∃ r ∈ dedupeAux fuel l, r.file_paths = f.file_paths
      ∧ r.partial_hash = f.partial_hash ∧ r.full_hash = f.full_hash
      ∧ r.file_length = f.file_length := by
  intro fuel
  induction fuel with
  | zero =>
    intro l hl f hf _ _
    rw [List.length_eq_zero.mp (Nat.le_zero.mp hl)] at hf
    simp at hf
  | succ fuel ih =>
    intro l hl f hf hcount hne
    cases l with
    | nil => simp at hf
    | cons h rest =>
      have hlen : (diffKey h rest).length ≤ fuel :=
        le_trans (diffKey_length_le h rest) (by simpa using Nat.le_of_succ_le_succ hl)
      rw [List.countP_cons] at hcount
      by_cases hkh : dkey h = dkey f
      · have hc0 : rest.countP (fun g => decide (dkey g = dkey f)) = 0 := by
          rw [decide_eq_true hkh] at hcount
          simpa using hcount
        have hfeq : f = h := by
          rcases List.mem_cons.mp hf with h1 | h2
          · exact h1
          · exfalso
            have : 0 < rest.countP (fun g => decide (dkey g = dkey f)) :=
              List.countP_pos_iff.mpr ⟨f, h2, by simp⟩
            omega
        subst hfeq
        have hsk : sameKey f rest = [] := by
          rw [sameKey]
          refine List.filter_eq_nil_iff.mpr ?_
          intro a ha
          have := List.countP_eq_zero.mp hc0 a ha
          simpa using this
        have hmp : (mergeInto f rest).file_paths = f.file_paths := by
          rw [mergeInto_paths, hsk]
          simp [pathsOf]
        have hemp : ¬(mergeInto f rest).file_paths.isEmpty = true := by
          rw [List.isEmpty_iff, hmp]
          exact hne
        rw [dedupeAux_cons, if_neg hemp]
        exact ⟨mergeInto f rest,
          List.mem_append_left _ (List.mem_singleton.mpr rfl), hmp, rfl, rfl, rfl⟩
      · have hfr : f ∈ rest := by
          rcases List.mem_cons.mp hf with h1 | h2
          · exact absurd (congrArg dkey h1).symm hkh
          · exact h2
        have hcrest : rest.countP (fun g => decide (dkey g = dkey f)) = 1 := by
          rw [decide_eq_false hkh] at hcount
          simpa using hcount
        have hcd : (diffKey h rest).countP (fun g => decide (dkey g = dkey f)) = 1 := by
          rw [diffKey, countP_filter_eq rest _ _ ?_]
          · exact hcrest
          · intro a ha
            have hak : dkey a = dkey f := of_decide_eq_true ha
            have : dkey a ≠ dkey h := fun e => hkh (e.symm.trans hak)
            simpa using this
        obtain ⟨r, hr, h1, h2, h3, h4⟩ := ih (diffKey h rest) hlen f
          (diffKey_mem hfr (fun e => hkh e.symm)) hcd hne
        rw [dedupeAux_cons]
        exact ⟨r, List.mem_append_right _ hr, h1, h2, h3, h4⟩

theorem dedupe_unique (l : List Fileinfo) :
    ∀ f ∈ l, l.countP (fun g => decide (dkey g = dkey f)) = 1 →
    f.file_paths ≠ [] →
    ∃ r ∈ dedupe l, r.file_paths = f.file_paths
      ∧ r.partial_hash = f.partial_hash ∧ r.full_hash = f.full_hash
      ∧ r.file_length = f.file_length :=
  dedupeAux_unique l.length l (Nat.le_refl _)

/-! ### Bucketing, flattening and traversal lemmas -/

theorem flatMap_congr_mem {α β : Type} (l : List α) (f g : α → List β)
    (h : ∀ a ∈ l, f a = g a) : l.flatMap f = l.flatMap g := by
  induction l with
  | nil => rfl
  | cons a t ih =>
    simp only [List.flatMap_cons, h a (List.mem_cons_self _ _),
      ih (fun b hb => h b (List.mem_cons_of_mem _ hb))]

/-- Partitioning a record list by a complete, duplicate-free list of
length keys is a permutation of the list. -/
theorem flatMap_bucket_perm_aux : ∀ (ks : List Nat) (l : List Fileinfo),
    ks.Nodup → (∀ f ∈ l, f.file_length ∈ ks) →
    (ks.flatMap (fun v => l.filter (fun f => decide (f.file_length = v)))).Perm l := by
  intro ks
  induction ks with
  | nil =>
    intro l _ hmem
    have : l = [] := by
      cases l with
      | nil => rfl
      | cons a t => exact absurd (hmem a (List.mem_cons_self _ _)) (by simp)
    rw [this]
    exact List.Perm.refl _
  | cons v ks ih =>
    intro l hnd hmem
    rw [List.flatMap_cons]
    have hrw : ks.flatMap (fun w => l.filter (fun f => decide (f.file_length = w)))
        = ks.flatMap (fun w =>
            (l.filter (fun f => !decide (f.file_length = v))).filter
              (fun f => decide (f.file_length = w))) := by
      apply flatMap_congr_mem
      intro w hw
      have hvw : w ≠ v := fun e => (List.nodup_cons.mp hnd).1 (e ▸ hw)
      rw [List.filter_filter]
      apply List.filter_congr
      intro a _
      by_cases hav : a.file_length = w
      · have : ¬a.file_length = v := fun e => hvw (hav.symm.trans e)
        simp [hav, this, hvw]
      · simp [hav]
    rw [hrw]
    have hih := ih (l.filter (fun f => !decide (f.file_length = v)))
      (List.nodup_cons.mp hnd).2 ?side
    case side =>
      intro f hf
      rw [List.mem_filter] at hf
      have h1 := hmem f hf.1
      have h2 : ¬f.file_length = v := by simpa using hf.2
      rcases List.mem_cons.mp h1 with e | hin
      · exact absurd e h2
      · exact hin
    exact List.Perm.trans (List.Perm.append_left _ hih)
      (List.filter_append_perm _ l)

theorem bucketOf_flat_perm (files : List Fileinfo) :
    ((bucketLengths files).flatMap (fun l => bucketOf files l)).Perm files := by
  apply flatMap_bucket_perm_aux
  · exact List.nodup_dedup _
  · intro f hf
    exact List.mem_dedup.mpr (List.mem_map_of_mem _ hf)

theorem bucketOf_mem {files : List Fileinfo} {l : Nat} {f : Fileinfo} :
    f ∈ bucketOf files l ↔ f ∈ files ∧ f.file_length = l := by
  simp [bucketOf, List.mem_filter]

theorem bucketLengths_mem {files : List Fileinfo} {f : Fileinfo} (hf : f ∈ files) :
    f.file_length ∈ bucketLengths files :=
  List.mem_dedup.mpr (List.mem_map_of_mem _ hf)

theorem optFlatten_mem : ∀ (os : List (Option (List Fileinfo))) (out : List Fileinfo),
    optFlatten os = some out →
    ∀ r, (r ∈ out ↔ ∃ o ∈ os, ∃ xs, o = some xs ∧ r ∈ xs) := by
  intro os
  induction os with
  | nil =>
    intro out hout r
    simp [optFlatten] at hout
    subst hout
    simp
  | cons o os ih =>
    intro out hout r
    cases o with
    | none => simp [optFlatten] at hout
    | some xs =>
      simp only [optFlatten] at hout
      rcases Option.map_eq_some'.mp hout with ⟨ys, hys, hcat⟩
      subst hcat
      constructor
      · intro hr
        rcases List.mem_append.mp hr with h1 | h2
        · exact ⟨some xs, List.mem_cons_self _ _, xs, rfl, h1⟩
        · rcases (ih ys hys r).mp h2 with ⟨o2, ho2, zs, hzs, hrzs⟩
          exact ⟨o2, List.mem_cons_of_mem _ ho2, zs, hzs, hrzs⟩
      · rintro ⟨o2, ho2, zs, hzs, hrzs⟩
        rcases List.mem_cons.mp ho2 with h1 | h2
        · subst h1
          cases hzs
          exact List.mem_append_left _ hrzs
        · exact List.mem_append_right _ ((ih ys hys r).mpr ⟨o2, h2, zs, hzs, hrzs⟩)

theorem optFlatten_paths_perm : ∀ (ks : List Nat)
    (gf : Nat → Option (List Fileinfo)) (bk : Nat → List Fileinfo)
    (out : List Fileinfo),
    optFlatten (ks.map gf) = some out →
    (∀ k ∈ ks, ∀ o, gf k = some o → (pathsOf o).Perm (pathsOf (bk k))) →
    (pathsOf out).Perm (pathsOf (ks.flatMap bk)) := by
  intro ks
  induction ks with
  | nil =>
    intro gf bk out hout _
    simp [optFlatten] at hout
    subst hout
    exact List.Perm.refl _
  | cons k ks ih =>
    intro gf bk out hout hperm
    rw [List.map_cons] at hout
    cases ho : gf k with
    | none => rw [ho] at hout; simp [optFlatten] at hout
    | some xs =>
      rw [ho] at hout
      simp only [optFlatten] at hout
      rcases Option.map_eq_some'.mp hout with ⟨ys, hys, hcat⟩
      subst hcat
      rw [List.flatMap_cons, pathsOf_append, pathsOf_append]
      exact List.Perm.append
        (hperm k (List.mem_cons_self _ _) xs ho)
        (ih gf bk ys hys
          (fun k2 hk2 o2 ho2 => hperm k2 (List.mem_cons_of_mem _ hk2) o2 ho2))

theorem mem_successPackages {pkgs : List ChannelPackage} {f : Fileinfo} :
    f ∈ successPackages pkgs ↔ ChannelPackage.Success f ∈ pkgs := by
  simp only [successPackages, List.mem_filterMap]
  constructor
  · rintro ⟨pkg, hpkg, hmatch⟩
    cases pkg with
    | Success g =>
      have : g = f := by simpa using hmatch
      subst this
      exact hpkg
    | Fail p e => simp at hmatch
  · intro h
    exact ⟨ChannelPackage.Success f, h, rfl⟩

theorem mem_failPackages {pkgs : List ChannelPackage} {p : Path} {e : FsError} :
    (p, e) ∈ failPackages pkgs ↔ ChannelPackage.Fail p e ∈ pkgs := by
  simp only [failPackages, List.mem_filterMap]
  constructor
  · rintro ⟨pkg, hpkg, hmatch⟩
    cases pkg with
    | Success g => simp at hmatch
    | Fail q e2 =>
      have : q = p ∧ e2 = e := by
        constructor <;> · cases hmatch; rfl
      rcases this with ⟨h1, h2⟩
      subst h1; subst h2
      exact hpkg
  · intro h
    exact ⟨ChannelPackage.Fail p e, h, rfl⟩

theorem traverse_succ_eq (fuel : Nat) (p : Path) (node : FNode) :
    traverse_and_spawn (fuel+1) p node
      = match metadataOf node with
        | none => [.Fail p .ioError]
        | some meta =>
          if meta.isSymlinkT then [.Fail p .pathIsSymlink]
          else if meta.isFileT then [.Success ⟨none, none, meta.lenOf, [p]⟩]
          else
            match meta with
            | .dir readable entries =>
              if readable then
                (entries.filter (fun e => e.2.isFileT)).map
                  (fun e => .Success ⟨none, none, e.2.lenOf, [p ++ [e.1]]⟩)
                ++ (entries.filter (fun e => !e.2.isFileT)).flatMap
                  (fun e => traverse_and_spawn fuel (p ++ [e.1]) e.2)
              else [.Fail p .ioError]
            | _ => [] := rfl

/-- Every success record emitted by the walker has no hashes yet and
exactly one path (src/src/lib.rs lines 266-273 and 292-300 build
`Fileinfo::new(None, None, len, path)` with a single path). -/
theorem traverse_success_shape : ∀ (fuel : Nat) (p : Path) (node : FNode)
    (f : Fileinfo), ChannelPackage.Success f ∈ traverse_and_spawn fuel p node →
    f.partial_hash = none ∧ f.full_hash = none ∧ ∃ q, f.file_paths = [q] := by
  intro fuel
  induction fuel with
  | zero => intro p node f h; simp [traverse_and_spawn] at h
  | succ fuel ih =>
    intro p node f h
    rw [traverse_succ_eq] at h
    cases hm : metadataOf node with
    | none => rw [hm] at h; simp at h
    | some meta =>
      rw [hm] at h
      dsimp only at h
      by_cases hsym : meta.isSymlinkT
      · rw [if_pos hsym] at h; simp at h
      · rw [if_neg hsym] at h
        by_cases hfile : meta.isFileT
        · rw [if_pos hfile] at h
          have : f = ⟨none, none, meta.lenOf, [p]⟩ := by simpa using h
          subst this
          exact ⟨rfl, rfl, p, rfl⟩
        · rw [if_neg hfile] at h
          cases meta with
          | file c => simp [FNode.isFileT] at hfile
          | symlink t => simp [FNode.isSymlinkT] at hsym
          | dir readable entries =>
            dsimp only at h
            by_cases hread : readable
            · rw [if_pos hread] at h
              rcases List.mem_append.mp h with h1 | h2
              · rcases List.mem_map.mp h1 with ⟨e, _, heq⟩
                have : f = ⟨none, none, e.2.lenOf, [p ++ [e.1]]⟩ := by
                  cases heq; rfl
                subst this
                exact ⟨rfl, rfl, p ++ [e.1], rfl⟩
              · rcases List.mem_flatMap.mp h2 with ⟨e, _, hmem⟩
                exact ih _ _ f hmem
            · rw [if_neg hread] at h; simp at h

/-! ### Differentiator lemmas -/

theorem pathsOf_map_preserving (files : List Fileinfo) (u : Fileinfo → Fileinfo)
    (h : ∀ f, (u f).file_paths = f.file_paths) :
    pathsOf (files.map u) = pathsOf files := by
  induction files with
  | nil => rfl
  | cons f rest ih =>
    simp only [List.map_cons, pathsOf_cons, h, ih]

/-- Case analysis of `differentiate_and_consolidate`: the four
non-panicking branches of src/src/lib.rs lines 315-357. -/
theorem diff_some_char (H : List Nat → Nat) (read : Path → FileData)
    (l : Nat) (files out : List Fileinfo)
    (h : differentiate_and_consolidate H read l files = some out) :
    (l = 0 ∧ out = files)
    ∨ (l ≠ 0 ∧ files.length = 1 ∧ out = files)
    ∨ (l ≠ 0 ∧ 2 ≤ files.length ∧ l ≤ BLOCK_SIZE
        ∧ out = dedupe ((partialPhase H read files).map
            fun f => { f with full_hash := f.partial_hash }))
    ∨ (l ≠ 0 ∧ 2 ≤ files.length ∧ BLOCK_SIZE < l
        ∧ (∀ f ∈ partialPhase H read files, f.partial_hash ≠ none)
        ∧ out = dedupe (fullPhase H read (partialPhase H read files))) := by
  unfold differentiate_and_consolidate at h
  by_cases h0 : l = 0
  · rw [if_pos h0] at h
    exact Or.inl ⟨h0, (Option.some.inj h).symm⟩
  · rw [if_neg h0] at h
    by_cases he : files.length = 0
    · rw [if_pos he] at h
      simp at h
    · rw [if_neg he] at h
      by_cases h1 : files.length = 1
      · rw [if_pos h1] at h
        exact Or.inr (Or.inl ⟨h0, h1, (Option.some.inj h).symm⟩)
      · rw [if_neg h1] at h
        have h2le : 2 ≤ files.length := by omega
        by_cases h2 : l ≤ BLOCK_SIZE
        · rw [if_pos h2] at h
          exact Or.inr (Or.inr (Or.inl ⟨h0, h2le, h2, (Option.some.inj h).symm⟩))
        · rw [if_neg h2] at h
          by_cases h3 : (partialPhase H read files).any (fun f => f.partial_hash.isNone)
          · rw [if_pos h3] at h
            simp at h
          · rw [if_neg h3] at h
            refine Or.inr (Or.inr (Or.inr ⟨h0, h2le, by omega, ?_,
              (Option.some.inj h).symm⟩))
            intro f hf hnone
            apply h3
            rw [List.any_eq_true]
            exact ⟨f, hf, by rw [hnone]; rfl⟩

/-- A zero-length bucket passes through unchanged
(src/src/lib.rs lines 316-318). -/
theorem diff_zero (H : List Nat → Nat) (read : Path → FileData)
    (files : List Fileinfo) :
    differentiate_and_consolidate H read 0 files = some files := rfl

theorem partialPhase_paths (H : List Nat → Nat) (read : Path → FileData)
    (files : List Fileinfo) :
    pathsOf (partialPhase H read files) = pathsOf files :=
  pathsOf_map_preserving files _ (fun _ => rfl)

theorem fullPhase_paths (H : List Nat → Nat) (read : Path → FileData)
    (files : List Fileinfo) :
    pathsOf (fullPhase H read files) = pathsOf files := by
  refine pathsOf_map_preserving files _ (fun f => ?_)
  unfold fullStep
  cases f.partial_hash with
  | none => rfl
  | some v =>
    by_cases hc : 2 ≤ (partialValues files).count v <;> simp [hc]

theorem copyPhase_paths (files : List Fileinfo) :
    pathsOf (files.map fun f => { f with full_hash := f.partial_hash })
      = pathsOf files :=
  pathsOf_map_preserving files _ (fun _ => rfl)

/-- The differentiator neither loses nor duplicates paths. -/
theorem diff_paths_perm (H : List Nat → Nat) (read : Path → FileData)
    (l : Nat) (files out : List Fileinfo)
    (h : differentiate_and_consolidate H read l files = some out) :
    (pathsOf out).Perm (pathsOf files) := by
  rcases diff_some_char H read l files out h with
    ⟨_, rfl⟩ | ⟨_, _, rfl⟩ | ⟨_, _, _, rfl⟩ | ⟨_, _, _, _, rfl⟩
  · exact List.Perm.refl _
  · exact List.Perm.refl _
  · have := dedupe_paths_perm ((partialPhase H read files).map
      fun f => { f with full_hash := f.partial_hash })
    rwa [copyPhase_paths, partialPhase_paths] at this
  · have := dedupe_paths_perm (fullPhase H read (partialPhase H read files))
    rwa [fullPhase_paths, partialPhase_paths] at this

theorem length_mem_map_preserving (files : List Fileinfo) (u : Fileinfo → Fileinfo)
    (h : ∀ f, (u f).file_length = f.file_length) :
    ∀ g ∈ files.map u, ∃ f ∈ files, g.file_length = f.file_length := by
  intro g hg
  rcases List.mem_map.mp hg with ⟨f, hf, rfl⟩
  exact ⟨f, hf, h f⟩

/-- Every record produced by the differentiator takes its length from an
input record of the bucket. -/
theorem diff_length_origin (H : List Nat → Nat) (read : Path → FileData)
    (l : Nat) (files out : List Fileinfo)
    (h : differentiate_and_consolidate H read l files = some out) :
    ∀ r ∈ out, ∃ f ∈ files, r.file_length = f.file_length := by
  rcases diff_some_char H read l files out h with
    ⟨_, rfl⟩ | ⟨_, _, rfl⟩ | ⟨_, _, _, rfl⟩ | ⟨_, _, _, _, rfl⟩
  · exact fun r hr => ⟨r, hr, rfl⟩
  · exact fun r hr => ⟨r, hr, rfl⟩
  · intro r hr
    obtain ⟨⟨g, hg, _, _, hlen2⟩, _, _⟩ := dedupe_origin _ r hr
    rcases List.mem_map.mp hg with ⟨g2, hg2, rfl⟩
    rcases List.mem_map.mp hg2 with ⟨g3, hg3, rfl⟩
    exact ⟨g3, hg3, hlen2⟩
  · intro r hr
    obtain ⟨⟨g, hg, _, _, hlen2⟩, _, _⟩ := dedupe_origin _ r hr
    rcases List.mem_map.mp hg with ⟨g2, hg2, rfl⟩
    rcases List.mem_map.mp hg2 with ⟨g3, hg3, rfl⟩
    refine ⟨g3, hg3, ?_⟩
    rw [hlen2]
    unfold fullStep
    cases hph : ({ g3 with partial_hash := generate_hash H read g3 .Partial }
        : Fileinfo).partial_hash with
    | none => rfl
    | some v =>
      by_cases hc : 2 ≤ (partialValues (partialPhase H read files)).count v <;>
        simp [hph, hc]

/-! ### Hash-key determinism -/

theorem generate_hash_eq_hashOf (H : List Nat → Nat) (read : Path → FileData)
    {f : Fileinfo} {p : Path} (hp : f.file_paths = [p]) (mode : HashMode) :
    generate_hash H read f mode = hashOf H read p mode := by
  unfold generate_hash hashOf
  rw [hp]
  rfl

theorem fullStep_paths (H : List Nat → Nat) (read : Path → FileData)
    (vals : List Nat) (f : Fileinfo) :
    (fullStep H read vals f).file_paths = f.file_paths := by
  unfold fullStep
  cases hph : f.partial_hash with
  | none => simp
  | some v => by_cases hc : 2 ≤ vals.count v <;> simp [hc]

theorem fullStep_phash (H : List Nat → Nat) (read : Path → FileData)
    (vals : List Nat) (f : Fileinfo) :
    (fullStep H read vals f).partial_hash = f.partial_hash := by
  unfold fullStep
  cases hph : f.partial_hash with
  | none => simp [hph]
  | some v => by_cases hc : 2 ≤ vals.count v <;> simp [hc, hph]

theorem fullStep_length (H : List Nat → Nat) (read : Path → FileData)
    (vals : List Nat) (f : Fileinfo) :
    (fullStep H read vals f).file_length = f.file_length := by
  unfold fullStep
  cases hph : f.partial_hash with
  | none => simp
  | some v => by_cases hc : 2 ≤ vals.count v <;> simp [hc]

theorem fullStep_full (H : List Nat → Nat) (read : Path → FileData)
    (vals : List Nat) (f : Fileinfo) :
    (fullStep H read vals f).full_hash
      = match f.partial_hash with
        | some v =>
          if 2 ≤ vals.count v then generate_hash H read f .Full else f.full_hash
        | none => f.full_hash := by
  unfold fullStep
  cases hph : f.partial_hash with
  | none => simp
  | some v => by_cases hc : 2 ≤ vals.count v <;> simp [hc]

theorem copy_key_det (H : List Nat → Nat) (read : Path → FileData)
    (files : List Fileinfo) (hshape : ∀ f ∈ files, walkerShape f) :
    ∀ f2 ∈ (partialPhase H read files).map
        (fun f => { f with full_hash := f.partial_hash }),
      ∀ p ∈ f2.file_paths,
      f2.file_paths = [p]
      ∧ dkey f2 = (hashOf H read p .Partial, hashOf H read p .Partial) := by
  intro f2 hf2 p hp
  rcases List.mem_map.mp hf2 with ⟨f1, hf1, rfl⟩
  rcases List.mem_map.mp hf1 with ⟨f, hf, rfl⟩
  obtain ⟨hpn, hfn, q, hq⟩ := hshape f hf
  have hp2 : p ∈ f.file_paths := hp
  rw [hq] at hp2
  have hpq : p = q := by simpa using hp2
  subst hpq
  have hgen : generate_hash H read f .Partial = hashOf H read p .Partial :=
    generate_hash_eq_hashOf H read hq .Partial
  exact ⟨hq, by simp [dkey, hgen]⟩

theorem full_key_det (H : List Nat → Nat) (read : Path → FileData)
    (files : List Fileinfo) (hshape : ∀ f ∈ files, walkerShape f) :
    ∀ f3 ∈ fullPhase H read (partialPhase H read files),
      ∀ p ∈ f3.file_paths,
      f3.file_paths = [p]
      ∧ dkey f3 = (hashOf H read p .Partial,
        match hashOf H read p .Partial with
        | some v =>
          if 2 ≤ (partialValues (partialPhase H read files)).count v then
            hashOf H read p .Full
          else none
        | none => none) := by
  intro f3 hf3 p hp
  rcases List.mem_map.mp hf3 with ⟨f1, hf1, rfl⟩
  rcases List.mem_map.mp hf1 with ⟨f, hf, rfl⟩
  obtain ⟨hpn, hfn, q, hq⟩ := hshape f hf
  have hq1 : ({ f with partial_hash := generate_hash H read f .Partial }
      : Fileinfo).file_paths = [q] := hq
  rw [fullStep_paths] at hp
  rw [hq1] at hp
  have hpq : p = q := by simpa using hp
  subst hpq
  have hgen : generate_hash H read f .Partial = hashOf H read p .Partial :=
    generate_hash_eq_hashOf H read hq .Partial
  have hgenF : generate_hash H read
      ({ f with partial_hash := generate_hash H read f .Partial } : Fileinfo)
      .Full = hashOf H read p .Full :=
    generate_hash_eq_hashOf H read hq1 .Full
  refine ⟨by rw [fullStep_paths]; exact hq1, ?_⟩
  unfold dkey
  rw [fullStep_phash, fullStep_full]
  have hf1p : ({ f with partial_hash := generate_hash H read f .Partial }
      : Fileinfo).partial_hash = hashOf H read p .Partial := hgen
  have hf1f : ({ f with partial_hash := generate_hash H read f .Partial }
      : Fileinfo).full_hash = none := hfn
  rw [hf1p, hf1f]
  cases hop : hashOf H read p .Partial with
  | none => rfl
  | some v =>
    by_cases hc : 2 ≤ (partialValues (partialPhase H read files)).count v <;>
      simp [hc, hgenF]
    exact generate_hash_eq_hashOf H read hq .Full

/-- Within one bucket, the consolidation key of a surviving record is
the key determined by any of the paths it carries. -/
theorem diff_out_key (H : List Nat → Nat) (read : Path → FileData)
    (l : Nat) (files out : List Fileinfo)
    (h : differentiate_and_consolidate H read l files = some out)
    (hshape : ∀ f ∈ files, walkerShape f) :
    ∀ r ∈ out, ∀ p ∈ r.file_paths,
      (∃ f ∈ files, p ∈ f.file_paths) ∧ dkey r = keyAt H read l files p := by
  rcases diff_some_char H read l files out h with
    ⟨h0, rfl⟩ | ⟨h0, h1, rfl⟩ | ⟨h0, h2, h3, rfl⟩ | ⟨h0, h2, h3, hnn, rfl⟩
  · intro r hr p hp
    obtain ⟨hph, hfh, _, _⟩ := hshape r hr
    refine ⟨⟨r, hr, hp⟩, ?_⟩
    rw [keyAt, if_pos h0]
    simp [dkey, hph, hfh]
  · intro r hr p hp
    obtain ⟨hph, hfh, _, _⟩ := hshape r hr
    refine ⟨⟨r, hr, hp⟩, ?_⟩
    rw [keyAt, if_neg h0, if_pos h1]
    simp [dkey, hph, hfh]
  · intro r hr p hp
    obtain ⟨_, horig, _⟩ := dedupe_origin _ r hr
    obtain ⟨f2, hf2, hpf2, hkey⟩ := horig p hp
    obtain ⟨hsing, hdet⟩ := copy_key_det H read files hshape f2 hf2 p hpf2
    have hmem : ∃ f ∈ files, p ∈ f.file_paths := by
      rcases List.mem_map.mp hf2 with ⟨f1, hf1, rfl⟩
      rcases List.mem_map.mp hf1 with ⟨f, hf, rfl⟩
      exact ⟨f, hf, hpf2⟩
    refine ⟨hmem, ?_⟩
    have hlen1 : files.length ≠ 1 := by omega
    rw [keyAt, if_neg h0, if_neg hlen1, if_pos h3, ← hkey, hdet]
  · intro r hr p hp
    obtain ⟨_, horig, _⟩ := dedupe_origin _ r hr
    obtain ⟨f3, hf3, hpf3, hkey⟩ := horig p hp
    obtain ⟨hsing, hdet⟩ := full_key_det H read files hshape f3 hf3 p hpf3
    have hmem : ∃ f ∈ files, p ∈ f.file_paths := by
      rcases List.mem_map.mp hf3 with ⟨f1, hf1, rfl⟩
      rcases List.mem_map.mp hf1 with ⟨f, hf, rfl⟩
      refine ⟨f, hf, ?_⟩
      rw [fullStep_paths] at hpf3
      exact hpf3
    refine ⟨hmem, ?_⟩
    have hlen1 : files.length ≠ 1 := by omega
    rw [keyAt, if_neg h0, if_neg hlen1, if_neg (by omega), ← hkey, hdet]

theorem pairwise_key_eq {o : List Fileinfo}
    (h : o.Pairwise (fun a b => dkey a ≠ dkey b)) :
    ∀ r1 ∈ o, ∀ r2 ∈ o, dkey r1 = dkey r2 → r1 = r2 := by
  induction o with
  | nil => intro r1 hr1; simp at hr1
  | cons a t ih =>
    intro r1 hr1 r2 hr2 hk
    rcases List.pairwise_cons.mp h with ⟨ha, ht⟩
    rcases List.mem_cons.mp hr1 with e1 | m1 <;>
      rcases List.mem_cons.mp hr2 with e2 | m2
    · rw [e1, e2]
    · subst e1; exact absurd hk (ha r2 m2)
    · subst e2; exact absurd hk.symm (ha r1 m1)
    · exact ih ht r1 m1 r2 m2 hk

/-! ### Pipeline assembly lemmas -/

theorem deduplicate_dirs_eq (H : List Nat → Nat) (read : Path → FileData)
    (fuel : Nat) (roots : List (Path × FNode)) :
    deduplicate_dirs H read fuel roots
      = (optFlatten ((bucketLengths (successesOf fuel roots)).map
          (fun l => differentiate_and_consolidate H read l
            (bucketOf (successesOf fuel roots) l)))).map
        (fun recs => (recs, failPackages (allPackages fuel roots))) := rfl

theorem dd_char {H : List Nat → Nat} {read : Path → FileData}
    {fuel : Nat} {roots : List (Path × FNode)}
    {recs : List Fileinfo} {errs : List (Path × FsError)}
    (h : deduplicate_dirs H read fuel roots = some (recs, errs)) :
    errs = failPackages (allPackages fuel roots)
    ∧ optFlatten ((bucketLengths (successesOf fuel roots)).map
        (fun l => differentiate_and_consolidate H read l
          (bucketOf (successesOf fuel roots) l))) = some recs := by
  rw [deduplicate_dirs_eq] at h
  rcases Option.map_eq_some'.mp h with ⟨recs2, hrecs2, heq⟩
  cases heq
  exact ⟨rfl, hrecs2⟩

/-- The returned records carry exactly the traversal's success paths, as
a multiset. -/
theorem dd_paths_perm {H : List Nat → Nat} {read : Path → FileData}
    {fuel : Nat} {roots : List (Path × FNode)}
    {recs : List Fileinfo} {errs : List (Path × FsError)}
    (h : deduplicate_dirs H read fuel roots = some (recs, errs)) :
    (pathsOf recs).Perm (pathsOf (successesOf fuel roots)) := by
  obtain ⟨_, hflat⟩ := dd_char h
  have h1 := optFlatten_paths_perm (bucketLengths (successesOf fuel roots))
    (fun l => differentiate_and_consolidate H read l
      (bucketOf (successesOf fuel roots) l))
    (fun l => bucketOf (successesOf fuel roots) l) recs hflat
    (fun k _ o ho => diff_paths_perm H read k _ o ho)
  exact h1.trans ((bucketOf_flat_perm (successesOf fuel roots)).flatMap_right _)

/-- Membership in the returned records, bucket by bucket. -/
theorem dd_mem {H : List Nat → Nat} {read : Path → FileData}
    {fuel : Nat} {roots : List (Path × FNode)}
    {recs : List Fileinfo} {errs : List (Path × FsError)}
    (h : deduplicate_dirs H read fuel roots = some (recs, errs)) :
    ∀ r, r ∈ recs ↔ ∃ l ∈ bucketLengths (successesOf fuel roots),
      ∃ o, differentiate_and_consolidate H read l
        (bucketOf (successesOf fuel roots) l) = some o ∧ r ∈ o := by
  obtain ⟨_, hflat⟩ := dd_char h
  intro r
  rw [optFlatten_mem _ recs hflat r]
  constructor
  · rintro ⟨o, ho, xs, hxs, hrxs⟩
    rcases List.mem_map.mp ho with ⟨l, hl, rfl⟩
    exact ⟨l, hl, xs, hxs, hrxs⟩
  · rintro ⟨l, hl, o, ho, hro⟩
    exact ⟨differentiate_and_consolidate H read l
      (bucketOf (successesOf fuel roots) l),
      List.mem_map_of_mem _ hl, o, ho, hro⟩

theorem successesOf_shape {fuel : Nat} {roots : List (Path × FNode)} :
    ∀ f ∈ successesOf fuel roots, walkerShape f := by
  intro f hf
  rcases List.mem_flatMap.mp ((mem_successPackages).mp hf) with ⟨r, _, hmem⟩
  obtain ⟨h1, h2, q, h3⟩ := traverse_success_shape fuel r.1 r.2 f hmem
  exact ⟨h1, h2, q, h3⟩

theorem bucket_shape {fuel : Nat} {roots : List (Path × FNode)} {l : Nat} :
    ∀ f ∈ bucketOf (successesOf fuel roots) l, walkerShape f := by
  intro f hf
  exact successesOf_shape f (bucketOf_mem.mp hf).1

/-- A path in a returned record traces back to a success record of the
traversal, in the bucket of that record's length, and the returned
record's key is determined by the bucket and the path. -/
theorem dd_record_trace {H : List Nat → Nat} {read : Path → FileData}
    {fuel : Nat} {roots : List (Path × FNode)}
    {recs : List Fileinfo} {errs : List (Path × FsError)}
    (h : deduplicate_dirs H read fuel roots = some (recs, errs)) :
    ∀ r ∈ recs, ∀ p ∈ r.file_paths,
      ∃ l ∈ bucketLengths (successesOf fuel roots),
        ∃ o, differentiate_and_consolidate H read l
            (bucketOf (successesOf fuel roots) l) = some o ∧ r ∈ o
        ∧ (∃ f ∈ successesOf fuel roots, p ∈ f.file_paths ∧ f.file_length = l)
        ∧ dkey r = keyAt H read l (bucketOf (successesOf fuel roots) l) p := by
  intro r hr p hp
  rcases (dd_mem h r).mp hr with ⟨l, hl, o, ho, hro⟩
  obtain ⟨⟨f, hf, hpf⟩, hkey⟩ :=
    diff_out_key H read l _ o ho bucket_shape r hro p hp
  rcases bucketOf_mem.mp hf with ⟨hfs, hflen⟩
  exact ⟨l, hl, o, ho, hro, ⟨f, hfs, hpf, hflen⟩, hkey⟩

theorem mem_pathsOf {files : List Fileinfo} {p : Path} :
    p ∈ pathsOf files ↔ ∃ f ∈ files, p ∈ f.file_paths := by
  simp [pathsOf]

/-- Within one bucket, a path pins down its surviving record. -/
theorem diff_out_path_unique (H : List Nat → Nat) (read : Path → FileData)
    (l : Nat) (files out : List Fileinfo)
    (h : differentiate_and_consolidate H read l files = some out)
    (hshape : ∀ f ∈ files, walkerShape f)
    (hlenb : ∀ f ∈ files, f.file_length = l) :
    ∀ r1 ∈ out, ∀ r2 ∈ out, ∀ p, p ∈ r1.file_paths → p ∈ r2.file_paths →
      r1 = r2 := by
  have hpass : ∀ (hout : out = files), ∀ r1 ∈ out, ∀ r2 ∈ out, ∀ p,
      p ∈ r1.file_paths → p ∈ r2.file_paths → r1 = r2 := by
    intro hout r1 hr1 r2 hr2 p hp1 hp2
    subst hout
    obtain ⟨h1p, h1f, q1, h1q⟩ := hshape r1 hr1
    obtain ⟨h2p, h2f, q2, h2q⟩ := hshape r2 hr2
    have e1 : q1 = p := by
      rw [h1q] at hp1
      simpa using (List.mem_singleton.mp hp1).symm
    have e2 : q2 = p := by
      rw [h2q] at hp2
      simpa using (List.mem_singleton.mp hp2).symm
    have hl1 := hlenb r1 hr1
    have hl2 := hlenb r2 hr2
    rcases r1 with ⟨a1, b1, c1, d1⟩
    rcases r2 with ⟨a2, b2, c2, d2⟩
    simp only at h1p h1f h1q h2p h2f h2q hl1 hl2
    subst h1p; subst h1f; subst h2p; subst h2f
    rw [h1q, h2q, e1, e2, hl1, hl2]
  have hded : ∀ (X : List Fileinfo) (hout : out = dedupe X)
      (hkeys : ∀ r ∈ out, ∀ p ∈ r.file_paths,
        dkey r = keyAt H read l files p),
      ∀ r1 ∈ out, ∀ r2 ∈ out, ∀ p, p ∈ r1.file_paths → p ∈ r2.file_paths →
        r1 = r2 := by
    intro X hout hkeys r1 hr1 r2 hr2 p hp1 hp2
    have hk12 : dkey r1 = dkey r2 := by
      rw [hkeys r1 hr1 p hp1, hkeys r2 hr2 p hp2]
    have hnd : out.Pairwise (fun a b => dkey a ≠ dkey b) := by
      rw [hout]
      exact dedupe_keys_nodup X
    exact pairwise_key_eq hnd r1 hr1 r2 hr2 hk12
  have hkeys : ∀ r ∈ out, ∀ p ∈ r.file_paths,
      dkey r = keyAt H read l files p :=
    fun r hr p hp => (diff_out_key H read l files out h hshape r hr p hp).2
  rcases diff_some_char H read l files out h with
    ⟨_, hout⟩ | ⟨_, _, hout⟩ | ⟨_, _, _, hout⟩ | ⟨_, _, _, _, hout⟩
  · exact hpass hout
  · exact hpass hout
  · exact hded _ hout hkeys
  · exact hded _ hout hkeys

/-- No path appears in two distinct returned records, provided that any
two traversal successes sharing a path report the same length (true of
any run over an actual file system, where a path determines one file). -/
theorem dd_path_unique {H : List Nat → Nat} {read : Path → FileData}
    {fuel : Nat} {roots : List (Path × FNode)}
    {recs : List Fileinfo} {errs : List (Path × FsError)}
    (h : deduplicate_dirs H read fuel roots = some (recs, errs))
    (hcoh : ∀ f ∈ successesOf fuel roots, ∀ g ∈ successesOf fuel roots,
      ∀ p, p ∈ f.file_paths → p ∈ g.file_paths →
      f.file_length = g.file_length) :
    ∀ r1 ∈ recs, ∀ r2 ∈ recs, ∀ p, p ∈ r1.file_paths → p ∈ r2.file_paths →
      r1 = r2 := by
  intro r1 hr1 r2 hr2 p hp1 hp2
  obtain ⟨l1, hl1, o1, ho1, hro1, ⟨f1, hf1s, hpf1, hflen1⟩, _⟩ :=
    dd_record_trace h r1 hr1 p hp1
  obtain ⟨l2, hl2, o2, ho2, hro2, ⟨f2, hf2s, hpf2, hflen2⟩, _⟩ :=
    dd_record_trace h r2 hr2 p hp2
  have hll : l1 = l2 := by
    rw [← hflen1, ← hflen2]
    exact hcoh f1 hf1s f2 hf2s p hpf1 hpf2
  subst hll
  have ho12 : o1 = o2 := by
    rw [ho1] at ho2
    exact Option.some.inj ho2
  subst ho12
  exact diff_out_path_unique H read l1 _ o1 ho1 bucket_shape
    (fun f hf => (bucketOf_mem.mp hf).2) r1 hro1 r2 hro2 p hp1 hp2

/-! ### First-occurrence characterization of consolidation -/

theorem filter_eq_append_cons {q : Fileinfo → Bool} :
    ∀ (l a c : List Fileinfo) (b : Fileinfo),
    l.filter q = a ++ b :: c →
    ∃ a2 c2, l = a2 ++ b :: c2 ∧ a2.filter q = a ∧ c2.filter q = c
      ∧ q b = true := by
  intro l
  induction l with
  | nil =>
    intro a c b h
    simp at h
  | cons x t ih =>
    intro a c b h
    by_cases hx : q x
    · rw [List.filter_cons_of_pos hx] at h
      cases a with
      | nil =>
        simp only [List.nil_append] at h
        obtain ⟨hxb, hfc⟩ := List.cons.inj h
        subst hxb
        exact ⟨[], t, rfl, rfl, hfc, hx⟩
      | cons y a2 =>
        rw [List.cons_append] at h
        obtain ⟨hxy, hrest⟩ := List.cons.inj h
        subst hxy
        obtain ⟨a3, c3, hteq, hfa, hfc, hqb⟩ := ih a2 c b hrest
        refine ⟨x :: a3, c3, by rw [hteq, List.cons_append], ?_, hfc, hqb⟩
        rw [List.filter_cons_of_pos hx, hfa]
    · rw [List.filter_cons_of_neg hx] at h
      obtain ⟨a3, c3, hteq, hfa, hfc, hqb⟩ := ih a c b h
      refine ⟨x :: a3, c3, by rw [hteq, List.cons_append], ?_, hfc, hqb⟩
      rw [List.filter_cons_of_neg hx, hfa]

theorem sameKey_diffKey_comm (f h : Fileinfo) (l : List Fileinfo)
    (hk : dkey f ≠ dkey h) :
    sameKey f (diffKey h l) = sameKey f l := by
  unfold sameKey diffKey
  rw [List.filter_filter]
  apply List.filter_congr
  intro a _
  by_cases ha : dkey a = dkey f
  · have hah : ¬dkey a = dkey h := fun e => hk (ha.symm.trans e)
    simp [ha, hah, hk]
  · simp [ha]

/-- Every survivor of consolidation is the first record of its key, and
carries its own paths followed by the paths of all later records with the
same key, in order. -/
theorem dedupeAux_survivor_char : ∀ (fuel : Nat) (l : List Fileinfo),
    l.length ≤ fuel → ∀ r ∈ dedupeAux fuel l,
    ∃ l1 f l2, l = l1 ++ f :: l2
      ∧ (∀ g ∈ l1, dkey g ≠ dkey f)
      ∧ r.partial_hash = f.partial_hash ∧ r.full_hash = f.full_hash
      ∧ r.file_length = f.file_length
      ∧ r.file_paths = f.file_paths ++ (sameKey f l2).flatMap (·.file_paths) := by
  intro fuel
  induction fuel with
  | zero =>
    intro l hl r hr
    rw [List.length_eq_zero.mp (Nat.le_zero.mp hl)] at hr
    simp [dedupeAux] at hr
  | succ fuel ih =>
    intro l hl r hr
    cases l with
    | nil => simp [dedupeAux] at hr
    | cons h rest =>
      rw [dedupeAux_cons] at hr
      have hlen : (diffKey h rest).length ≤ fuel :=
        le_trans (diffKey_length_le h rest) (by simpa using Nat.le_of_succ_le_succ hl)
      rcases List.mem_append.mp hr with hr1 | hr2
      · have hreq : r = mergeInto h rest := by
          by_cases hemp : (mergeInto h rest).file_paths.isEmpty
          · rw [if_pos hemp] at hr1; simp at hr1
          · rw [if_neg hemp] at hr1; simpa using hr1
        subst hreq
        exact ⟨[], h, rest, rfl, by simp, rfl, rfl, rfl, rfl⟩
      · obtain ⟨d1, f, d2, hdeq, hd1, hp, hfh, hflen, hpaths⟩ := ih _ hlen r hr2
        obtain ⟨a2, c2, hre, hfa, hfc, hqb⟩ :=
          filter_eq_append_cons rest d1 d2 f hdeq
        have hkfh : dkey f ≠ dkey h := by
          simpa using hqb
        refine ⟨h :: a2, f, c2, by rw [hre]; rfl, ?_, hp, hfh, hflen, ?_⟩
        · intro g hg
          rcases List.mem_cons.mp hg with e | hga
          · subst e
            exact fun e2 => hkfh e2.symm
          · by_cases hgq : dkey g = dkey h
            · exact fun e2 => hkfh (e2.symm.trans hgq)
            · have hgd : g ∈ d1 := by
                rw [← hfa]
                exact List.mem_filter.mpr ⟨hga, by simpa using hgq⟩
              exact hd1 g hgd
        · rw [hpaths]
          have hsk : sameKey f d2 = sameKey f c2 := by
            rw [← hfc]
            exact sameKey_diffKey_comm f h c2 hkfh
          rw [hsk]

/-- Conversely, the first record of each key survives with its own paths
followed by the paths of the later records with its key, provided the
combined path list is non-empty. -/
theorem dedupeAux_first_occ_mem : ∀ (fuel : Nat) (l : List Fileinfo),
    l.length ≤ fuel →
    ∀ (l1 : List Fileinfo) (f : Fileinfo) (l2 : List Fileinfo),
    l = l1 ++ f :: l2 →
    (∀ g ∈ l1, dkey g ≠ dkey f) →
    f.file_paths ++ (sameKey f l2).flatMap (·.file_paths) ≠ [] →
    ∃ r ∈ dedupeAux fuel l,
      r.partial_hash = f.partial_hash ∧ r.full_hash = f.full_hash
      ∧ r.file_length = f.file_length
      ∧ r.file_paths = f.file_paths ++ (sameKey f l2).flatMap (·.file_paths) := by
  intro fuel
  induction fuel with
  | zero =>
    intro l hl l1 f l2 hleq _ _
    rw [List.length_eq_zero.mp (Nat.le_zero.mp hl)] at hleq
    exact absurd hleq.symm (List.append_ne_nil_of_right_ne_nil _ (by simp))
  | succ fuel ih =>
    intro l hl l1 f l2 hleq hfirst hne
    subst hleq
    cases l1 with
    | nil =>
      rw [List.nil_append, dedupeAux_cons]
      have hemp : ¬(mergeInto f l2).file_paths.isEmpty = true := by
        rw [List.isEmpty_iff, mergeInto_paths]
        exact hne
      rw [if_neg hemp]
      exact ⟨mergeInto f l2,
        List.mem_append_left _ (List.mem_singleton.mpr rfl),
        rfl, rfl, rfl, mergeInto_paths f l2⟩
    | cons h l1b =>
      have hkh : dkey h ≠ dkey f := hfirst h (List.mem_cons_self _ _)
      have hkfh : dkey f ≠ dkey h := fun e => hkh e.symm
      rw [List.cons_append, dedupeAux_cons]
      have hsplit : diffKey h (l1b ++ f :: l2)
          = diffKey h l1b ++ f :: diffKey h l2 := by
        unfold diffKey
        rw [List.filter_append, List.filter_cons_of_pos (by simpa using hkfh)]
      have hlen : (diffKey h (l1b ++ f :: l2)).length ≤ fuel := by
        refine le_trans (diffKey_length_le h _) ?_
        have := hl
        simp only [List.cons_append, List.length_cons] at this
        omega
      have hfirst2 : ∀ g ∈ diffKey h l1b, dkey g ≠ dkey f := by
        intro g hg
        exact hfirst g (List.mem_cons_of_mem _ (mem_diffKey hg).1)
      have hsame : sameKey f (diffKey h l2) = sameKey f l2 :=
        sameKey_diffKey_comm f h l2 hkfh
      have hne2 : f.file_paths
          ++ (sameKey f (diffKey h l2)).flatMap (·.file_paths) ≠ [] := by
        rw [hsame]
        exact hne
      obtain ⟨r, hr, h1, h2, h3, h4⟩ :=
        ih (diffKey h (l1b ++ f :: l2)) hlen (diffKey h l1b) f (diffKey h l2)
          hsplit hfirst2 hne2
      refine ⟨r, List.mem_append_right _ hr, h1, h2, h3, ?_⟩
      rw [h4, hsame]

/-! ### Filtered-walker lemmas (spec-modelled ignore roots and size floor) -/

theorem deduplicate_dirs_filtered_eq (H : List Nat → Nat)
    (read : Path → FileData) (fuel : Nat) (ignored : List Path)
    (min_size : Nat) (roots : List (Path × FNode)) :
    deduplicate_dirs_filtered H read fuel ignored min_size roots
      = (optFlatten ((bucketLengths
            (successPackages (packagesFiltered fuel ignored min_size roots))).map
          (fun l => differentiate_and_consolidate H read l
            (bucketOf (successPackages
              (packagesFiltered fuel ignored min_size roots)) l)))).map
        (fun recs =>
          (recs, failPackages (packagesFiltered fuel ignored min_size roots))) :=
  rfl

theorem traverse_filtered_succ_eq (fuel : Nat) (ignored : List Path)
    (min_size : Nat) (p : Path) (node : FNode) :
    traverse_filtered (fuel+1) ignored min_size p node
      = if ignored.any (fun g => decide (g <+: p)) then []
        else if node.isSymlinkT then [.Fail p .pathIsSymlink]
        else
          match node with
          | .file c =>
            if min_size ≤ c.length then [.Success ⟨none, none, c.length, [p]⟩]
            else []
          | .dir readable entries =>
            if readable then
              entries.flatMap fun e =>
                traverse_filtered fuel ignored min_size (p ++ [e.1]) e.2
            else [.Fail p .ioError]
          | .symlink _ => [] := rfl

/-- Every package of the filtered walker respects the filters: no emitted
path lies under an ignore root, and every success is an undersized-free
walker-shaped record. -/
theorem traverse_filtered_mem : ∀ (fuel : Nat) (ignored : List Path)
    (min_size : Nat) (p : Path) (node : FNode) (pkg : ChannelPackage),
    pkg ∈ traverse_filtered fuel ignored min_size p node →
    (∀ q e, pkg = .Fail q e → ∀ g ∈ ignored, ¬ g <+: q)
    ∧ (∀ f, pkg = .Success f →
        (∀ q ∈ f.file_paths, ∀ g ∈ ignored, ¬ g <+: q)
        ∧ min_size ≤ f.file_length ∧ walkerShape f) := by
  intro fuel
  induction fuel with
  | zero =>
    intro ignored min_size p node pkg h
    simp [traverse_filtered] at h
  | succ fuel ih =>
    intro ignored min_size p node pkg h
    rw [traverse_filtered_succ_eq] at h
    by_cases hig : ignored.any (fun g => decide (g <+: p))
    · rw [if_pos hig] at h
      simp at h
    · rw [if_neg hig] at h
      have hnp : ∀ g ∈ ignored, ¬ g <+: p := by
        intro g hg hpre
        apply hig
        rw [List.any_eq_true]
        exact ⟨g, hg, by simpa using hpre⟩
      by_cases hsym : node.isSymlinkT
      · rw [if_pos hsym] at h
        have : pkg = .Fail p .pathIsSymlink := by simpa using h
        subst this
        constructor
        · intro q e heq
          cases heq
          exact hnp
        · intro f heq
          cases heq
      · rw [if_neg hsym] at h
        cases node with
        | file c =>
          dsimp only at h
          by_cases hms : min_size ≤ c.length
          · rw [if_pos hms] at h
            have : pkg = .Success ⟨none, none, c.length, [p]⟩ := by simpa using h
            subst this
            constructor
            · intro q e heq
              cases heq
            · intro f heq
              cases heq
              refine ⟨?_, hms, rfl, rfl, p, rfl⟩
              intro q hq
              have : q = p := by simpa using hq
              subst this
              exact hnp
          · rw [if_neg hms] at h
            simp at h
        | symlink t => simp [FNode.isSymlinkT] at hsym
        | dir readable entries =>
          dsimp only at h
          by_cases hread : readable
          · rw [if_pos hread] at h
            rcases List.mem_flatMap.mp h with ⟨e, _, hmem⟩
            exact ih ignored min_size (p ++ [e.1]) e.2 pkg hmem
          · rw [if_neg hread] at h
            have : pkg = .Fail p .ioError := by simpa using h
            subst this
            constructor
            · intro q e2 heq
              cases heq
              exact hnp
            · intro f heq
              cases heq

theorem packagesFiltered_success_shape {fuel : Nat} {ignored : List Path}
    {min_size : Nat} {roots : List (Path × FNode)} :
    ∀ f ∈ successPackages (packagesFiltered fuel ignored min_size roots),
      (∀ q ∈ f.file_paths, ∀ g ∈ ignored, ¬ g <+: q)
      ∧ min_size ≤ f.file_length ∧ walkerShape f := by
  intro f hf
  rcases List.mem_flatMap.mp ((mem_successPackages).mp hf) with ⟨r, _, hmem⟩
  exact (traverse_filtered_mem fuel ignored min_size r.1 r.2 _ hmem).2 f rfl

theorem ddf_char {H : List Nat → Nat} {read : Path → FileData}
    {fuel : Nat} {ignored : List Path} {min_size : Nat}
    {roots : List (Path × FNode)}
    {recs : List Fileinfo} {errs : List (Path × FsError)}
    (h : deduplicate_dirs_filtered H read fuel ignored min_size roots
      = some (recs, errs)) :
    errs = failPackages (packagesFiltered fuel ignored min_size roots)
    ∧ optFlatten ((bucketLengths
          (successPackages (packagesFiltered fuel ignored min_size roots))).map
        (fun l => differentiate_and_consolidate H read l
          (bucketOf (successPackages
            (packagesFiltered fuel ignored min_size roots)) l)))
      = some recs := by
  rw [deduplicate_dirs_filtered_eq] at h
  rcases Option.map_eq_some'.mp h with ⟨recs2, hrecs2, heq⟩
  cases heq
  exact ⟨rfl, hrecs2⟩

theorem ddf_mem {H : List Nat → Nat} {read : Path → FileData}
    {fuel : Nat} {ignored : List Path} {min_size : Nat}
    {roots : List (Path × FNode)}
    {recs : List Fileinfo} {errs : List (Path × FsError)}
    (h : deduplicate_dirs_filtered H read fuel ignored min_size roots
      = some (recs, errs)) :
    ∀ r, r ∈ recs ↔ ∃ l ∈ bucketLengths
        (successPackages (packagesFiltered fuel ignored min_size roots)),
      ∃ o, differentiate_and_consolidate H read l
        (bucketOf (successPackages
          (packagesFiltered fuel ignored min_size roots)) l) = some o
        ∧ r ∈ o := by
  obtain ⟨_, hflat⟩ := ddf_char h
  intro r
  rw [optFlatten_mem _ recs hflat r]
  constructor
  · rintro ⟨o, ho, xs, hxs, hrxs⟩
    rcases List.mem_map.mp ho with ⟨l, hl, rfl⟩
    exact ⟨l, hl, xs, hxs, hrxs⟩
  · rintro ⟨l, hl, o, ho, hro⟩
    exact ⟨differentiate_and_consolidate H read l
      (bucketOf (successPackages (packagesFiltered fuel ignored min_size roots)) l),
      List.mem_map_of_mem _ hl, o, ho, hro⟩

/-! ### Readability, no-panic and zero-length helpers -/

theorem partialValues_count (files1 : List Fileinfo)
    (hall : ∀ f ∈ files1, f.partial_hash ≠ none) (v : Nat) :
    (partialValues files1).count v
      = files1.countP (fun f => decide (f.partial_hash = some v)) := by
  induction files1 with
  | nil => rfl
  | cons f t ih =>
    cases hf : f.partial_hash with
    | none => exact absurd hf (hall f (List.mem_cons_self _ _))
    | some w =>
      have ht := ih (fun g hg => hall g (List.mem_cons_of_mem _ hg))
      simp only [partialValues] at ht
      by_cases hwv : w = v
      · subst hwv
        simp [partialValues, List.filterMap_cons, hf, List.count_cons,
          List.countP_cons, ht]
      · simp [partialValues, List.filterMap_cons, hf, List.count_cons,
          List.countP_cons, ht, hwv]

theorem partialPhase_shape (H : List Nat → Nat) (read : Path → FileData)
    (files : List Fileinfo)
    (hshape : ∀ f ∈ files, walkerShape f)
    (hread : ∀ f ∈ files, ∀ p ∈ f.file_paths,
      (read p).openOk = true ∧ (read p).readOk = true) :
    ∀ f1 ∈ partialPhase H read files,
      f1.partial_hash ≠ none ∧ f1.full_hash = none ∧ ∃ q, f1.file_paths = [q] := by
  intro f1 hf1
  rcases List.mem_map.mp hf1 with ⟨f, hf, rfl⟩
  obtain ⟨_, hfull, q, hq⟩ := hshape f hf
  obtain ⟨ho, hr⟩ := hread f hf q (by rw [hq]; simp)
  refine ⟨?_, hfull, q, hq⟩
  have : generate_hash H read f .Partial
      = some (H (transcript .Partial (read q).content)) := by
    unfold generate_hash
    rw [hq]
    simp [ho, hr]
  simp [this]

theorem diff_some_of_no_none (H : List Nat → Nat) (read : Path → FileData)
    (l : Nat) (files : List Fileinfo)
    (hnone : ∀ f1 ∈ partialPhase H read files, f1.partial_hash ≠ none)
    (hne : files ≠ []) :
    ∃ out, differentiate_and_consolidate H read l files = some out := by
  unfold differentiate_and_consolidate
  by_cases h0 : l = 0
  · rw [if_pos h0]; exact ⟨files, rfl⟩
  · rw [if_neg h0]
    have hlen0 : files.length ≠ 0 := fun he =>
      hne (List.length_eq_zero.mp he)
    rw [if_neg hlen0]
    by_cases h1 : files.length = 1
    · rw [if_pos h1]; exact ⟨files, rfl⟩
    · rw [if_neg h1]
      by_cases h2 : l ≤ BLOCK_SIZE
      · rw [if_pos h2]
        exact ⟨_, rfl⟩
      · rw [if_neg h2]
        have hany : ¬(partialPhase H read files).any
            (fun f => f.partial_hash.isNone) = true := by
          intro hc
          rcases List.any_eq_true.mp hc with ⟨f1, hf1, hnn⟩
          exact hnone f1 hf1 (Option.isNone_iff_eq_none.mp hnn)
        rw [if_neg hany]
        exact ⟨_, rfl⟩

theorem diff_eq_full_branch (H : List Nat → Nat) (read : Path → FileData)
    (l : Nat) (files : List Fileinfo)
    (hl : BLOCK_SIZE < l) (hn : 2 ≤ files.length)
    (hnone : ∀ f1 ∈ partialPhase H read files, f1.partial_hash ≠ none) :
    differentiate_and_consolidate H read l files
      = some (dedupe (fullPhase H read (partialPhase H read files))) := by
  unfold differentiate_and_consolidate
  rw [if_neg (by omega : ¬l = 0), if_neg (by omega : ¬files.length = 0),
    if_neg (by omega : ¬files.length = 1), if_neg (by omega : ¬l ≤ BLOCK_SIZE)]
  have hany : ¬(partialPhase H read files).any
      (fun f => f.partial_hash.isNone) = true := by
    intro hc
    rcases List.any_eq_true.mp hc with ⟨f1, hf1, hnn⟩
    exact hnone f1 hf1 (Option.isNone_iff_eq_none.mp hnn)
  rw [if_neg hany]

theorem diff_eq_copy_branch (H : List Nat → Nat) (read : Path → FileData)
    (l : Nat) (files : List Fileinfo)
    (h0 : l ≠ 0) (hl : l ≤ BLOCK_SIZE) (hn : 2 ≤ files.length) :
    differentiate_and_consolidate H read l files
      = some (dedupe ((partialPhase H read files).map
          fun f => { f with full_hash := f.partial_hash })) := by
  unfold differentiate_and_consolidate
  rw [if_neg h0, if_neg (by omega : ¬files.length = 0),
    if_neg (by omega : ¬files.length = 1), if_pos hl]

theorem diff_length_const (H : List Nat → Nat) (read : Path → FileData)
    (l : Nat) (files out : List Fileinfo)
    (h : differentiate_and_consolidate H read l files = some out)
    (hlenb : ∀ f ∈ files, f.file_length = l) :
    ∀ r ∈ out, r.file_length = l := by
  intro r hr
  obtain ⟨f, hf, he⟩ := diff_length_origin H read l files out h r hr
  rw [he, hlenb f hf]

theorem optFlatten_filter_zero : ∀ (ks : List Nat)
    (gf : Nat → Option (List Fileinfo)) (P : Fileinfo → Bool)
    (b0 out : List Fileinfo),
    ks.Nodup →
    optFlatten (ks.map gf) = some out →
    (∀ k ∈ ks, ∀ o, gf k = some o → o.filter P = if k = 0 then b0 else []) →
    out.filter P = if 0 ∈ ks then b0 else [] := by
  intro ks
  induction ks with
  | nil =>
    intro gf P b0 out _ hout _
    simp [optFlatten] at hout
    subst hout
    simp
  | cons k ks ih =>
    intro gf P b0 out hnd hout hfil
    rw [List.map_cons] at hout
    cases ho : gf k with
    | none => rw [ho] at hout; simp [optFlatten] at hout
    | some xs =>
      rw [ho] at hout
      simp only [optFlatten] at hout
      rcases Option.map_eq_some'.mp hout with ⟨ys, hys, hcat⟩
      subst hcat
      have hxs := hfil k (List.mem_cons_self _ _) xs ho
      have hys2 := ih gf P b0 ys (List.nodup_cons.mp hnd).2 hys
        (fun k2 hk2 o2 ho2 => hfil k2 (List.mem_cons_of_mem _ hk2) o2 ho2)
      rw [List.filter_append, hxs, hys2]
      by_cases hk : k = 0
      · subst hk
        have h0ks : 0 ∉ ks := (List.nodup_cons.mp hnd).1
        simp [h0ks]
      · have hk0 : ¬(0 : Nat) = k := fun e => hk e.symm
        by_cases h0 : 0 ∈ ks <;> simp [hk, h0, hk0]

theorem two_le_length_of_two_mem {α : Type} {a b : α} {l : List α}
    (ha : a ∈ l) (hb : b ∈ l) (hab : a ≠ b) : 2 ≤ l.length := by
  cases l with
  | nil => simp at ha
  | cons x t =>
    cases t with
    | nil =>
      have e1 : a = x := by simpa using ha
      have e2 : b = x := by simpa using hb
      exact absurd (e1.trans e2.symm) hab
    | cons y t2 => simp [List.length_cons]

theorem partialValues_cons_some {x : Fileinfo} {t : List Fileinfo} {w : Nat}
    (hx : x.partial_hash = some w) :
    partialValues (x :: t) = w :: partialValues t := by
  simp [partialValues, List.filterMap_cons, hx]

theorem partialValues_cons_none {x : Fileinfo} {t : List Fileinfo}
    (hx : x.partial_hash = none) :
    partialValues (x :: t) = partialValues t := by
  simp [partialValues, List.filterMap_cons, hx]

theorem two_le_count_partialValues : ∀ {files1 : List Fileinfo}
    {a b : Fileinfo} {v : Nat},
    a ∈ files1 → b ∈ files1 → a ≠ b →
    a.partial_hash = some v → b.partial_hash = some v →
    2 ≤ (partialValues files1).count v := by
  intro files1
  induction files1 with
  | nil => intro a b v ha _ _ _ _; simp at ha
  | cons x t ih =>
    intro a b v ha hb hab hav hbv
    rcases List.mem_cons.mp ha with ea | hat
    · subst ea
      have hbt : b ∈ t := by
        rcases List.mem_cons.mp hb with eb | h2
        · exact absurd eb.symm hab
        · exact h2
      have hvt : v ∈ partialValues t := List.mem_filterMap.mpr ⟨b, hbt, hbv⟩
      have h1 : 0 < (partialValues t).count v := List.count_pos_iff.mpr hvt
      rw [partialValues_cons_some hav, List.count_cons_self]
      omega
    · rcases List.mem_cons.mp hb with eb | hbt
      · subst eb
        have hvt : v ∈ partialValues t := List.mem_filterMap.mpr ⟨a, hat, hav⟩
        have h1 : 0 < (partialValues t).count v := List.count_pos_iff.mpr hvt
        rw [partialValues_cons_some hbv, List.count_cons_self]
        omega
      · have hrec := ih hat hbt hab hav hbv
        cases hx : x.partial_hash with
        | none => rw [partialValues_cons_none hx]; exact hrec
        | some w =>
          rw [partialValues_cons_some hx, List.count_cons]
          split <;> omega

theorem optFlatten_some_of_all : ∀ (ks : List Nat)
    (gf : Nat → Option (List Fileinfo)),
    (∀ k ∈ ks, ∃ o, gf k = some o) →
    ∃ out, optFlatten (ks.map gf) = some out := by
  intro ks
  induction ks with
  | nil => intro gf _; exact ⟨[], rfl⟩
  | cons k ks ih =>
    intro gf hall
    obtain ⟨o, ho⟩ := hall k (List.mem_cons_self _ _)
    obtain ⟨out, hout⟩ := ih gf (fun k2 hk2 => hall k2 (List.mem_cons_of_mem _ hk2))
    refine ⟨o ++ out, ?_⟩
    rw [List.map_cons, ho]
    simp only [optFlatten, hout, Option.map_some']

theorem block_le_buf : BLOCK_SIZE ≤ BUF_LEN := by decide

/-- A run over files that are all readable at hash time never panics. -/
theorem dd_some_of_readable (H : List Nat → Nat) (read : Path → FileData)
    (fuel : Nat) (roots : List (Path × FNode))
    (hread : ∀ f ∈ successesOf fuel roots, ∀ p ∈ f.file_paths,
      (read p).openOk = true ∧ (read p).readOk = true) :
    ∃ recs errs, deduplicate_dirs H read fuel roots = some (recs, errs) := by
  have hall : ∀ k ∈ bucketLengths (successesOf fuel roots),
      ∃ o, differentiate_and_consolidate H read k
        (bucketOf (successesOf fuel roots) k) = some o := by
    intro k hk
    apply diff_some_of_no_none
    · intro f1 hf1
      exact (partialPhase_shape H read _ bucket_shape
        (fun f hf p hp => hread f (bucketOf_mem.mp hf).1 p hp) f1 hf1).1
    · rcases List.mem_dedup.mp hk with hk2
      rcases List.mem_map.mp hk2 with ⟨f, hf, rfl⟩
      intro hnil
      have : f ∈ bucketOf (successesOf fuel roots) f.file_length :=
        bucketOf_mem.mpr ⟨hf, rfl⟩
      rw [hnil] at this
      simp at this
  obtain ⟨out, hout⟩ := optFlatten_some_of_all _ _ hall
  refine ⟨out, failPackages (allPackages fuel roots), ?_⟩
  rw [deduplicate_dirs_eq, hout]
  rfl

/-- C2: in every completed run, the union of the surviving records' path
sets is exactly the multiset of success paths emitted by the traversal,
and — provided any two successes sharing a path report the same length,
as on a real file system — no path lies in two distinct surviving
records. -/
theorem C2_partition_correctness
    (H : List Nat → Nat) (read : Path → FileData) (fuel : Nat)
    (roots : List (Path × FNode)) (recs : List Fileinfo)
    (errs : List (Path × FsError))
    (h : deduplicate_dirs H read fuel roots = some (recs, errs))
    (hcoh : ∀ f ∈ successesOf fuel roots, ∀ g ∈ successesOf fuel roots,
      ∀ p, p ∈ f.file_paths → p ∈ g.file_paths →
        f.file_length = g.file_length) :
    (∀ p : Path, (∃ r ∈ recs, p ∈ r.file_paths)
        ↔ (∃ f ∈ successesOf fuel roots, p ∈ f.file_paths))
    ∧ (∀ r1 ∈ recs, ∀ r2 ∈ recs, ∀ p, p ∈ r1.file_paths →
        p ∈ r2.file_paths → r1 = r2) := by
  refine ⟨?_, dd_path_unique h hcoh⟩
  intro p
  rw [← mem_pathsOf, ← mem_pathsOf]
  exact (dd_paths_perm h).mem_iff

/-! ### Dead symlink branch -/

/-- Metadata obtained by following links is never itself a symlink, just
as Rust's `fs::metadata` never reports `is_symlink()` on its result. -/
theorem metadataOf_not_symlink : ∀ (n m : FNode),
    metadataOf n = some m → m.isSymlinkT = false
  | .symlink none, _, h => by simp [metadataOf] at h
  | .symlink (some t), m, h =>
    metadataOf_not_symlink t m (by simpa [metadataOf] using h)
  | .file c, m, h => by
    rw [metadataOf] at h
    cases h
    rfl
  | .dir r es, m, h => by
    rw [metadataOf] at h
    cases h
    rfl

/-- The "Path is symlink" failure of src/src/lib.rs lines 258-263 is dead
code: `fs::metadata` follows links, so the `is_symlink` check on its
result never fires and no such failure is ever emitted. -/
theorem traverse_no_symlink_fail : ∀ (fuel : Nat) (p q : Path) (node : FNode),
    ChannelPackage.Fail q FsError.pathIsSymlink ∉ traverse_and_spawn fuel p node := by
  intro fuel
  induction fuel with
  | zero => intro p q node h; simp [traverse_and_spawn] at h
  | succ fuel ih =>
    intro p q node h
    rw [traverse_succ_eq] at h
    cases hm : metadataOf node with
    | none => rw [hm] at h; simp at h
    | some meta =>
      rw [hm] at h
      dsimp only at h
      rw [metadataOf_not_symlink node meta hm] at h
      simp only [Bool.false_eq_true, if_false] at h
      by_cases hfile : meta.isFileT
      · rw [if_pos hfile] at h
        simp at h
      · rw [if_neg hfile] at h
        cases meta with
        | file c => simp [FNode.isFileT] at hfile
        | symlink t =>
          exact absurd (metadataOf_not_symlink node (.symlink t) hm) (by simp [FNode.isSymlinkT])
        | dir readable entries =>
          dsimp only at h
          by_cases hread : readable
          · rw [if_pos hread] at h
            rcases List.mem_append.mp h with h1 | h2
            · rcases List.mem_map.mp h1 with ⟨e, _, heq⟩
              cases heq
            · rcases List.mem_flatMap.mp h2 with ⟨e, _, hmem⟩
              exact ih _ q e.2 hmem
          · rw [if_neg hread] at h
            simp at h

/-! ### Claim theorems -/

/-- C3 (code_bug evidence): a root path that is a symbolic link to a
regular 3-byte file is emitted as a `Success` dedup candidate carrying
the symlink's path — because `fs::metadata` (line 248) follows the link,
the `is_symlink` check of line 258 can never fire — and no
"Path is symlink" failure is ever emitted for any tree, contradicting the
claim that symlinks always produce a failure record and never a success
record. -/
theorem C3_symlink_not_skipped :
    traverse_and_spawn 2 [0] (FNode.symlink (some (FNode.file [7, 8, 9])))
      = [ChannelPackage.Success ⟨none, none, 3, [[0]]⟩]
    ∧ ∀ (fuel : Nat) (p q : Path) (node : FNode),
        ChannelPackage.Fail q FsError.pathIsSymlink
          ∉ traverse_and_spawn fuel p node := by
  exact ⟨by decide, traverse_no_symlink_fail⟩

/-- C9: consolidation keeps, for each key, exactly the first record
observed, appending to it (in order) the paths of every later record
with the same key; records whose path list ends up empty are dropped,
and every returned record has a non-empty path list. -/
theorem C9_consolidator_first_survives (files : List Fileinfo) :
    (∀ r ∈ dedupe files, r.file_paths ≠ [])
    ∧ (∀ r ∈ dedupe files,
        ∃ l1 f l2, files = l1 ++ f :: l2
          ∧ (∀ g ∈ l1, dkey g ≠ dkey f)
          ∧ r.partial_hash = f.partial_hash ∧ r.full_hash = f.full_hash
          ∧ r.file_length = f.file_length
          ∧ r.file_paths = f.file_paths
              ++ (sameKey f l2).flatMap (·.file_paths))
    ∧ (∀ (l1 : List Fileinfo) (f : Fileinfo) (l2 : List Fileinfo),
        files = l1 ++ f :: l2 →
        (∀ g ∈ l1, dkey g ≠ dkey f) →
        f.file_paths ++ (sameKey f l2).flatMap (·.file_paths) ≠ [] →
        ∃ r ∈ dedupe files,
          r.partial_hash = f.partial_hash ∧ r.full_hash = f.full_hash
          ∧ r.file_length = f.file_length
          ∧ r.file_paths = f.file_paths
              ++ (sameKey f l2).flatMap (·.file_paths)) :=
  ⟨fun r hr => (dedupe_origin files r hr).2.2,
    dedupeAux_survivor_char files.length files (Nat.le_refl _),
    fun l1 f l2 h1 h2 h3 =>
      dedupeAux_first_occ_mem files.length files (Nat.le_refl _) l1 f l2 h1 h2 h3⟩

/-- C9 witness: a singleton record with one path survives consolidation
with its own fields. -/
theorem C9_consolidator_first_survives_witness :
    ∃ r ∈ dedupe [recC9w],
      r.partial_hash = recC9w.partial_hash ∧ r.full_hash = recC9w.full_hash
      ∧ r.file_length = recC9w.file_length
      ∧ r.file_paths = recC9w.file_paths
          ++ (sameKey recC9w []).flatMap (·.file_paths) :=
  (C9_consolidator_first_survives [recC9w]).2.2 [] recC9w [] rfl
    (by simp) (by decide)

/-- C10: a zero-length bucket is returned by the differentiator
unchanged — no hashing, no merging: in any completed run the zero-length
surviving records are exactly the zero-length success records of the
traversal, each still a singleton with both hash fields absent, even when
several zero-length files are byte-identical. -/
theorem C10_zero_length_passthrough
    (H : List Nat → Nat) (read : Path → FileData) (fuel : Nat)
    (roots : List (Path × FNode)) (recs : List Fileinfo)
    (errs : List (Path × FsError))
    (h : deduplicate_dirs H read fuel roots = some (recs, errs)) :
    (∀ files, differentiate_and_consolidate H read 0 files = some files)
    ∧ recs.filter (fun r => decide (r.file_length = 0))
        = (successesOf fuel roots).filter (fun f => decide (f.file_length = 0))
    ∧ (∀ r ∈ recs, r.file_length = 0 →
        r.partial_hash = none ∧ r.full_hash = none
        ∧ ∃ q, r.file_paths = [q]) := by
  obtain ⟨_, hflat⟩ := dd_char h
  have hofz := optFlatten_filter_zero
    (bucketLengths (successesOf fuel roots))
    (fun l => differentiate_and_consolidate H read l
      (bucketOf (successesOf fuel roots) l))
    (fun r => decide (r.file_length = 0))
    (bucketOf (successesOf fuel roots) 0) recs
    (List.nodup_dedup _) hflat ?side
  case side =>
    intro k _ o ho
    dsimp only at ho
    by_cases hk0 : k = 0
    · subst hk0
      rw [diff_zero] at ho
      have ho2 : o = bucketOf (successesOf fuel roots) 0 :=
        (Option.some.inj ho).symm
      subst ho2
      rw [if_pos rfl]
      refine List.filter_eq_self.mpr ?_
      intro a ha
      simp [(bucketOf_mem.mp ha).2]
    · rw [if_neg hk0]
      refine List.filter_eq_nil_iff.mpr ?_
      intro r hr
      have := diff_length_const H read k _ o ho
        (fun f hf => (bucketOf_mem.mp hf).2) r hr
      simp [this, hk0]
  have hfil : recs.filter (fun r => decide (r.file_length = 0))
      = (successesOf fuel roots).filter (fun f => decide (f.file_length = 0)) := by
    by_cases hz : 0 ∈ bucketLengths (successesOf fuel roots)
    · rw [if_pos hz] at hofz
      exact hofz
    · rw [if_neg hz] at hofz
      rw [hofz]
      symm
      refine List.filter_eq_nil_iff.mpr ?_
      intro f hf hdec
      apply hz
      have hlen0 : f.file_length = 0 := by simpa using hdec
      rw [← hlen0]
      exact bucketLengths_mem hf
  refine ⟨fun files => diff_zero H read files, hfil, ?_⟩
  intro r hr hlen0
  have hmemf : r ∈ recs.filter (fun r => decide (r.file_length = 0)) :=
    List.mem_filter.mpr ⟨hr, by simp [hlen0]⟩
  rw [hfil] at hmemf
  exact successesOf_shape r (List.mem_filter.mp hmemf).1

/-- C10 witness: a run over two empty files returns both as separate
zero-length singleton records. -/
theorem C10_zero_length_passthrough_witness :
    (∀ files, differentiate_and_consolidate hashZero readEmpty 0 files
      = some files)
    ∧ ([⟨none, none, 0, [[0, 0]]⟩, ⟨none, none, 0, [[0, 1]]⟩]
        : List Fileinfo).filter (fun r => decide (r.file_length = 0))
        = (successesOf 2 rootsTwoEmpty).filter
            (fun f => decide (f.file_length = 0))
    ∧ (∀ r ∈ ([⟨none, none, 0, [[0, 0]]⟩, ⟨none, none, 0, [[0, 1]]⟩]
        : List Fileinfo), r.file_length = 0 →
        r.partial_hash = none ∧ r.full_hash = none
        ∧ ∃ q, r.file_paths = [q]) :=
  C10_zero_length_passthrough hashZero readEmpty 2 rootsTwoEmpty
    [⟨none, none, 0, [[0, 0]]⟩, ⟨none, none, 0, [[0, 1]]⟩] []
    (by decide)

/-- C4 counterexample: two records whose files cannot be opened both get
absent hashes, and consolidation merges them with each other — their
`(none, none)` keys are equal — contradicting the claim that two records
with absent hashes are never merged. -/
theorem C4_counterexample :
    (readUnreadable [0]).openOk = false
    ∧ (readUnreadable [1]).openOk = false
    ∧ differentiate_and_consolidate hashZero readUnreadable 1
        filesTwoUnreadable = some [⟨none, none, 1, [[0], [1]]⟩] :=
  ⟨rfl, rfl, by decide⟩

/-- C4 (amended): a failed open or read makes `generate_hash` return an
absent hash without crashing; consolidation then merges records exactly
by equality of the (partial, full) option pair — so records with equal
absent hashes are merged together — and in a bucket of size at least 2
whose length exceeds `BLOCK_SIZE` an absent partial hash makes
`differentiate_and_consolidate` panic (the `unwrap` of src/src/lib.rs
line 337), modelled as `none`. -/
theorem C4_absent_hash_behaviour :
    (∀ (H : List Nat → Nat) (read : Path → FileData) (f : Fileinfo)
        (p : Path) (mode : HashMode), f.file_paths = [p] →
        ((read p).openOk = false ∨ (read p).readOk = false) →
        generate_hash H read f mode = none)
    ∧ (∀ (files : List Fileinfo) (f g : Fileinfo), f ∈ files → g ∈ files →
        dkey f = dkey g → f.file_paths ≠ [] →
        ∃ r ∈ dedupe files,
          (∀ p ∈ f.file_paths, p ∈ r.file_paths)
          ∧ (∀ p ∈ g.file_paths, p ∈ r.file_paths))
    ∧ (∀ (H : List Nat → Nat) (read : Path → FileData) (l : Nat)
        (files : List Fileinfo), BLOCK_SIZE < l → 2 ≤ files.length →
        (∃ f1 ∈ partialPhase H read files, f1.partial_hash = none) →
        differentiate_and_consolidate H read l files = none) := by
  refine ⟨?_, ?_, ?_⟩
  · intro H read f p mode hp hfail
    unfold generate_hash
    rw [hp]
    rcases hfail with ho | hr
    · simp [ho]
    · by_cases ho2 : (read p).openOk <;> simp [ho2, hr]
  · intro files f g hf hg hk hne
    exact dedupe_merge files f g hf hg hk hne
  · intro H read l files hl hn hex
    unfold differentiate_and_consolidate
    rw [if_neg (by omega : ¬l = 0), if_neg (by omega : ¬files.length = 0),
      if_neg (by omega : ¬files.length = 1), if_neg (by omega : ¬l ≤ BLOCK_SIZE)]
    rcases hex with ⟨f1, hf1, hnn⟩
    rw [if_pos (List.any_eq_true.mpr ⟨f1, hf1, by simp [hnn]⟩)]

/-- C4 witness: the amended behaviour at concrete inputs — an absent hash
from a failed open, the merge of the two `(none, none)` records, and the
panic of a large bucket containing a failed partial hash. -/
theorem C4_absent_hash_behaviour_witness :
    generate_hash hashZero readUnreadable ⟨none, none, 1, [[0]]⟩ .Partial = none
    ∧ (∃ r ∈ dedupe filesTwoUnreadable,
        (∀ p ∈ (⟨none, none, 1, [[0]]⟩ : Fileinfo).file_paths, p ∈ r.file_paths)
        ∧ (∀ p ∈ (⟨none, none, 1, [[1]]⟩ : Fileinfo).file_paths, p ∈ r.file_paths))
    ∧ differentiate_and_consolidate hashZero readUnreadable 5000
        filesTwoUnreadable = none :=
  ⟨C4_absent_hash_behaviour.1 hashZero readUnreadable _ [0] .Partial rfl
      (Or.inl (by decide)),
    C4_absent_hash_behaviour.2.1 filesTwoUnreadable _ _ (by decide) (by decide)
      (by decide) (by decide),
    C4_absent_hash_behaviour.2.2 hashZero readUnreadable 5000 filesTwoUnreadable
      (by decide) (by decide)
      ⟨⟨none, none, 1, [[0]]⟩, by decide, by decide⟩⟩

/-- C6 counterexample: a bucket of two byte-identical files of length
8192 — at most the 16 KiB partial-hash block size — has every member
hashed twice: the `file_length <= 4096` test of src/src/lib.rs line 329
uses `BLOCK_SIZE`, not the partial-read buffer size, so a second (full)
read pass is issued even though the partial hash already covered the
whole file. -/
theorem C6_counterexample :
    8192 ≤ BUF_LEN
    ∧ (readRep8192 [0]).content = (readRep8192 [1]).content
    ∧ (∀ f ∈ filesTwo8192, f.file_length = 8192)
    ∧ 2 ≤ filesTwo8192.length
    ∧ hashCalls hashZero readRep8192 8192 filesTwo8192 = [2, 2] :=
  ⟨by decide, rfl, by decide, by decide, by decide⟩

/-- C6 (amended): the short-circuit threshold is `BLOCK_SIZE` (4096
bytes), a quarter of the 16 KiB partial-read buffer: for buckets of
length at most `BLOCK_SIZE` every member is hashed at most once and the
partial hash is copied into the full-hash field of every surviving
record; files with length in (4096, 16384] may be read a second time. -/
theorem C6_short_circuit_at_block_size
    (H : List Nat → Nat) (read : Path → FileData) (l : Nat)
    (files : List Fileinfo)
    (hl0 : l ≠ 0) (hl : l ≤ BLOCK_SIZE) (hn : 2 ≤ files.length) :
    (∀ c ∈ hashCalls H read l files, c ≤ 1)
    ∧ ∃ out, differentiate_and_consolidate H read l files = some out
        ∧ ∀ r ∈ out, r.full_hash = r.partial_hash := by
  constructor
  · intro c hc
    unfold hashCalls at hc
    rw [if_neg hl0, if_neg (by omega : ¬files.length ≤ 1), if_pos hl] at hc
    rcases List.mem_map.mp hc with ⟨_, _, rfl⟩
    exact Nat.le_refl 1
  · refine ⟨_, diff_eq_copy_branch H read l files hl0 hl hn, ?_⟩
    intro r hr
    obtain ⟨⟨f2, hf2, hp2, hfh2, _⟩, _, _⟩ := dedupe_origin _ r hr
    rcases List.mem_map.mp hf2 with ⟨f1, _, rfl⟩
    rw [hp2, hfh2]

/-- C6 witness: the amended short-circuit property at a concrete
length-10 bucket. -/
theorem C6_short_circuit_at_block_size_witness :
    (∀ c ∈ hashCalls hashZero readTen 10 filesTwoTen, c ≤ 1)
    ∧ ∃ out, differentiate_and_consolidate hashZero readTen 10 filesTwoTen
        = some out ∧ ∀ r ∈ out, r.full_hash = r.partial_hash :=
  C6_short_circuit_at_block_size hashZero readTen 10 filesTwoTen
    (by decide) (by decide) (by decide)

/-- C7 counterexample: with the hash function taken to be the length of
the byte sequence fed to the hasher, the partial hash of a 1-byte file is
the hash of 16384 bytes — the whole zero-padded buffer — not of the
1-byte leading block, and the full hash likewise is not the hash of the
file's byte stream: bytes other than the file's contribute. -/
theorem C7_counterexample :
    generate_hash List.length readOneByte recOneByte .Partial
      ≠ some (List.length (([1] : List Nat).take BUF_LEN))
    ∧ generate_hash List.length readOneByte recOneByte .Full
      ≠ some (List.length ([1] : List Nat)) := by
  have hp : generate_hash List.length readOneByte recOneByte .Partial
      = some ((transcript .Partial [1]).length) := rfl
  have hf : generate_hash List.length readOneByte recOneByte .Full
      = some ((transcript .Full [1]).length) := rfl
  have hlen : (transcript .Partial [1]).length = BUF_LEN :=
    transcript_partial_length (by decide)
  have hfull : transcript .Full ([1] : List Nat) = transcript .Partial [1] :=
    transcript_full_of_le (by decide)
  constructor
  · rw [hp, hlen]
    intro hcontra
    have := Option.some.inj hcontra
    simp at this
    exact absurd this (by decide)
  · rw [hf, hfull, hlen]
    intro hcontra
    have := Option.some.inj hcontra
    simp at this
    exact absurd this (by decide)

/-- C7 (amended): the partial hash feeds the hasher the leading
`min(length, BUF_LEN)` bytes of the file zero-padded to the whole 16 KiB
buffer; for a file no longer than one buffer the full-mode transcript
equals the partial one; and for a readable file `generate_hash` returns
the hash of exactly the mode's transcript of the file's content. -/
theorem C7_transcript_shape :
    (∀ c : List Nat, c ≠ [] →
      transcript .Partial c
        = c.take BUF_LEN ++ List.replicate (BUF_LEN - min c.length BUF_LEN) 0)
    ∧ (∀ c : List Nat, c.length ≤ BUF_LEN →
        transcript .Full c = transcript .Partial c)
    ∧ (∀ (H : List Nat → Nat) (read : Path → FileData) (f : Fileinfo)
        (p : Path) (mode : HashMode), f.file_paths = [p] →
        (read p).openOk = true → (read p).readOk = true →
        generate_hash H read f mode
          = some (H (transcript mode (read p).content))) := by
  refine ⟨fun c hc => transcript_partial_eq hc,
    fun c hc => transcript_full_of_le hc, ?_⟩
  intro H read f p mode hp ho hr
  unfold generate_hash
  rw [hp]
  simp [ho, hr]

/-- C7 witness: the amended transcript shape at a 1-byte file. -/
theorem C7_transcript_shape_witness :
    transcript .Partial [5]
      = ([5] : List Nat).take BUF_LEN
        ++ List.replicate (BUF_LEN - min ([5] : List Nat).length BUF_LEN) 0
    ∧ transcript .Full ([5] : List Nat) = transcript .Partial [5]
    ∧ generate_hash List.length readOneByte recOneByte .Partial
      = some (List.length (transcript .Partial (readOneByte [0]).content)) :=
  ⟨C7_transcript_shape.1 [5] (by decide),
    C7_transcript_shape.2.1 [5] (by decide),
    C7_transcript_shape.2.2 List.length readOneByte recOneByte [0] .Partial
      rfl rfl rfl⟩

theorem fullStep_of_not_flagged (H : List Nat → Nat) (read : Path → FileData)
    (vals : List Nat) (f1 : Fileinfo) {v : Nat}
    (hv : f1.partial_hash = some v) (hc : ¬2 ≤ vals.count v) :
    fullStep H read vals f1 = f1 := by
  unfold fullStep
  rw [hv]
  dsimp only
  rw [if_neg hc]

/-- C8: in a bucket of size at least 2 whose length exceeds the
short-circuit threshold, a record's full hash is computed precisely when
its partial-hash value occurs at least twice in the bucket; a record
whose partial-hash value is unique survives consolidation with exactly
its own path list, its full hash still absent — it is never merged with
any other record. -/
theorem C8_full_pass_iff
    (H : List Nat → Nat) (read : Path → FileData) (l : Nat)
    (files : List Fileinfo)
    (hl : BLOCK_SIZE < l) (hn : 2 ≤ files.length)
    (hshape : ∀ f ∈ files, walkerShape f)
    (hread : ∀ f ∈ files, ∀ p ∈ f.file_paths,
      (read p).openOk = true ∧ (read p).readOk = true) :
    (∀ f1 ∈ partialPhase H read files, ∃ v, f1.partial_hash = some v
      ∧ ((fullStep H read (partialValues (partialPhase H read files))
            f1).full_hash ≠ none
          ↔ 2 ≤ (partialValues (partialPhase H read files)).count v))
    ∧ (∀ f1 ∈ partialPhase H read files, ∀ v, f1.partial_hash = some v →
        (partialValues (partialPhase H read files)).count v = 1 →
        ∃ out, differentiate_and_consolidate H read l files = some out
          ∧ ∃ r ∈ out, r.file_paths = f1.file_paths ∧ r.partial_hash = some v
            ∧ r.full_hash = none) := by
  have hphase := partialPhase_shape H read files hshape hread
  constructor
  · intro f1 hf1
    obtain ⟨hp1, hfull1, q, hq1⟩ := hphase f1 hf1
    cases hv : f1.partial_hash with
    | none => exact absurd hv hp1
    | some v =>
      refine ⟨v, rfl, ?_⟩
      by_cases hc : 2 ≤ (partialValues (partialPhase H read files)).count v
      · have hro : (read q).openOk = true ∧ (read q).readOk = true := by
          rcases List.mem_map.mp hf1 with ⟨f, hf, rfl⟩
          have hq0 : f.file_paths = [q] := hq1
          exact hread f hf q (by rw [hq0]; simp)
        have hfgen : generate_hash H read f1 .Full
            = some (H (transcript .Full (read q).content)) := by
          unfold generate_hash
          rw [hq1]
          simp [hro.1, hro.2]
        have : (fullStep H read (partialValues (partialPhase H read files))
            f1).full_hash = generate_hash H read f1 .Full := by
          unfold fullStep
          rw [hv]
          dsimp only
          rw [if_pos hc]
        rw [this, hfgen]
        simp [hc]
      · rw [fullStep_of_not_flagged H read _ f1 hv hc, hfull1]
        simp [hc]
  · intro f1 hf1 v hv hcount
    obtain ⟨hp1, hfull1, q, hq1⟩ := hphase f1 hf1
    have hnn : ∀ g1 ∈ partialPhase H read files, g1.partial_hash ≠ none :=
      fun g1 hg1 => (hphase g1 hg1).1
    refine ⟨_, diff_eq_full_branch H read l files hl hn hnn, ?_⟩
    have hf3eq : fullStep H read (partialValues (partialPhase H read files)) f1
        = f1 :=
      fullStep_of_not_flagged H read _ f1 hv (by omega)
    have hf3 : f1 ∈ fullPhase H read (partialPhase H read files) := by
      unfold fullPhase
      rw [← hf3eq]
      exact List.mem_map_of_mem _ hf1
    have hkey : dkey f1 = (some v, none) := by
      simp [dkey, hv, hfull1]
    have hcountP : (fullPhase H read (partialPhase H read files)).countP
        (fun g => decide (dkey g = dkey f1)) = 1 := by
      unfold fullPhase
      rw [List.countP_map]
      have hcongr : (partialPhase H read files).countP
          (fun g1 => decide (dkey (fullStep H read
            (partialValues (partialPhase H read files)) g1) = dkey f1))
          = (partialPhase H read files).countP
            (fun g1 => decide (g1.partial_hash = some v)) := by
        apply List.countP_congr
        intro g1 hg1
        obtain ⟨hgp, hgf, q2, hgq⟩ := hphase g1 hg1
        simp only [decide_eq_true_eq]
        constructor
        · intro he
          have h2 : (fullStep H read (partialValues (partialPhase H read files))
              g1).partial_hash = some v :=
            congrArg Prod.fst (he.trans hkey)
          rwa [fullStep_phash] at h2
        · intro hgv
          have hstep := fullStep_of_not_flagged H read
            (partialValues (partialPhase H read files)) g1 hgv (by omega)
          rw [hstep, hkey]
          simp [dkey, hgv, hgf]
      rw [show (fun g => decide (dkey g = dkey f1))
          ∘ (fullStep H read (partialValues (partialPhase H read files)))
          = (fun g1 => decide (dkey (fullStep H read
            (partialValues (partialPhase H read files)) g1) = dkey f1))
          from rfl, hcongr]
      rw [← partialValues_count _ hnn v]
      exact hcount
    obtain ⟨r, hr, hrp, hrph, hrfh, _⟩ :=
      dedupe_unique _ f1 hf3 hcountP (by rw [hq1]; simp)
    exact ⟨r, hr, hrp, by rw [hrph, hv], by rw [hrfh, hfull1]⟩

/-- C8 witness: in a length-5000 bucket of two files with distinct
partial hashes, the record whose partial-hash value is unique survives
with exactly its own path and no full hash. -/
theorem C8_full_pass_iff_witness :
    ∃ out, differentiate_and_consolidate headHash readHeads 5000 filesTwo5000
      = some out
      ∧ ∃ r ∈ out,
        r.file_paths = (⟨none, some 1, 5000, [[0]]⟩ : Fileinfo).file_paths
        ∧ r.partial_hash = some 1 ∧ r.full_hash = none :=
  (C8_full_pass_iff headHash readHeads 5000 filesTwo5000
      (by decide) (by decide)
      (by
        intro f hf
        rcases List.mem_cons.mp hf with rfl | hf2
        · exact ⟨rfl, rfl, [0], rfl⟩
        · rcases List.mem_cons.mp hf2 with rfl | hf3
          · exact ⟨rfl, rfl, [1], rfl⟩
          · simp at hf3)
      (by decide)).2
    ⟨none, some 1, 5000, [[0]]⟩ (by decide) 1 (by decide) (by decide)

/-- C5: every run of the spec-modelled filtered pipeline emits no
surviving record path and no error path under a canonicalized ignore
root, and every surviving record's length is at least the minimum size
(0 meaning no floor). -/
theorem C5_filters_respected
    (H : List Nat → Nat) (read : Path → FileData) (fuel : Nat)
    (ignored : List Path) (min_size : Nat) (roots : List (Path × FNode))
    (recs : List Fileinfo) (errs : List (Path × FsError))
    (h : deduplicate_dirs_filtered H read fuel ignored min_size roots
      = some (recs, errs)) :
    (∀ r ∈ recs, (∀ q ∈ r.file_paths, ∀ g ∈ ignored, ¬ g <+: q)
      ∧ min_size ≤ r.file_length)
    ∧ (∀ pe ∈ errs, ∀ g ∈ ignored, ¬ g <+: pe.1) := by
  obtain ⟨herrs, hflat⟩ := ddf_char h
  constructor
  · intro r hr
    rcases (ddf_mem h r).mp hr with ⟨l, hl, o, ho, hro⟩
    have hshape2 : ∀ f ∈ bucketOf
        (successPackages (packagesFiltered fuel ignored min_size roots)) l,
        walkerShape f :=
      fun f hf => (packagesFiltered_success_shape f (bucketOf_mem.mp hf).1).2.2
    constructor
    · intro q hq g hg
      obtain ⟨⟨f, hf, hqf⟩, _⟩ :=
        diff_out_key H read l _ o ho hshape2 r hro q hq
      have hfs := (bucketOf_mem.mp hf).1
      exact (packagesFiltered_success_shape f hfs).1 q hqf g hg
    · obtain ⟨f, hf, hlen⟩ := diff_length_origin H read l _ o ho r hro
      have hfs := (bucketOf_mem.mp hf).1
      rw [hlen]
      exact (packagesFiltered_success_shape f hfs).2.1
  · rintro ⟨pp, ee⟩ hpe g hg
    rw [herrs] at hpe
    have hfail : ChannelPackage.Fail pp ee
        ∈ packagesFiltered fuel ignored min_size roots :=
      mem_failPackages.mp hpe
    rcases List.mem_flatMap.mp hfail with ⟨rt, _, hmem⟩
    exact (traverse_filtered_mem fuel ignored min_size rt.1 rt.2 _ hmem).1
      pp ee rfl g hg

/-- C5 witness: a run with ignore root `[0, 3]` and minimum size 2 keeps
only the qualifying 3-byte file outside the ignored subtree and reports
only the symlink skip. -/
theorem C5_filters_respected_witness :
    (∀ r ∈ ([⟨none, none, 3, [[0, 0]]⟩] : List Fileinfo),
      (∀ q ∈ r.file_paths, ∀ g ∈ ([[0, 3]] : List Path), ¬ g <+: q)
      ∧ 2 ≤ r.file_length)
    ∧ (∀ pe ∈ ([([0, 2], FsError.pathIsSymlink)] : List (Path × FsError)),
        ∀ g ∈ ([[0, 3]] : List Path), ¬ g <+: pe.1) :=
  C5_filters_respected hashZero readOneTwoThree 3 [[0, 3]] 2 rootsFiltered
    [⟨none, none, 3, [[0, 0]]⟩] [([0, 2], FsError.pathIsSymlink)] (by decide)

/-- C1 counterexample: a completed collision-free run (the hash is
injective and is in fact never invoked) in which two discovered 1-byte
files with different contents — whose opens fail at hash time — end up
with their paths in the same surviving record, refuting the claim that
files with differing contents always land in different records. -/
theorem C1_counterexample :
    Function.Injective encL
    ∧ (readC1x [0]).content ≠ (readC1x [1]).content
    ∧ deduplicate_dirs encL readC1x 1 rootsC1x
        = some ([⟨none, none, 1, [[0], [1]]⟩], [])
    ∧ ∃ r ∈ ([⟨none, none, 1, [[0], [1]]⟩] : List Fileinfo),
        [0] ∈ r.file_paths ∧ [1] ∈ r.file_paths :=
  ⟨encL_injective, by decide, by decide,
    ⟨⟨none, none, 1, [[0], [1]]⟩, by decide, by decide, by decide⟩⟩

/-- C1 (amended): in a run whose discovered files are all readable at
hash time on a stable file system (recorded lengths match hash-time
content lengths) and whose hash has no collisions, the pipeline
completes, any two byte-identical discovered files of positive length end
up in one surviving record, and any two discovered files with differing
contents never share a surviving record. -/
theorem C1_duplicate_grouping
    (H : List Nat → Nat) (read : Path → FileData) (fuel : Nat)
    (roots : List (Path × FNode))
    (hinj : Function.Injective H)
    (hread : ∀ f ∈ successesOf fuel roots, ∀ p ∈ f.file_paths,
      (read p).openOk = true ∧ (read p).readOk = true)
    (hlen : ∀ f ∈ successesOf fuel roots, ∀ p ∈ f.file_paths,
      (read p).content.length = f.file_length)
    (fp fq : Fileinfo) (p q : Path)
    (hfp : fp ∈ successesOf fuel roots) (hfq : fq ∈ successesOf fuel roots)
    (hpp : p ∈ fp.file_paths) (hqq : q ∈ fq.file_paths)
    (hpq : p ≠ q) :
    ∃ recs errs, deduplicate_dirs H read fuel roots = some (recs, errs)
    ∧ ((read p).content = (read q).content → 0 < (read p).content.length →
        ∃ r ∈ recs, p ∈ r.file_paths ∧ q ∈ r.file_paths)
    ∧ ((read p).content ≠ (read q).content →
        (∃ r ∈ recs, p ∈ r.file_paths) ∧ (∃ r ∈ recs, q ∈ r.file_paths)
        ∧ ∀ r ∈ recs, ¬(p ∈ r.file_paths ∧ q ∈ r.file_paths)) := by
  obtain ⟨recs, errs, hsome⟩ := dd_some_of_readable H read fuel roots hread
  obtain ⟨hfppn, hfpfn, p0, hfp0⟩ := successesOf_shape fp hfp
  obtain ⟨hfqpn, hfqfn, q0, hfq0⟩ := successesOf_shape fq hfq
  have hpeq : fp.file_paths = [p] := by
    rw [hfp0]
    rw [hfp0] at hpp
    have := List.mem_singleton.mp hpp
    rw [this]
  have hqeq : fq.file_paths = [q] := by
    rw [hfq0]
    rw [hfq0] at hqq
    have := List.mem_singleton.mp hqq
    rw [this]
  obtain ⟨hpo, hpr⟩ := hread fp hfp p hpp
  obtain ⟨hqo, hqr⟩ := hread fq hfq q hqq
  have hhp : ∀ mode, hashOf H read p mode
      = some (H (transcript mode (read p).content)) := by
    intro mode
    unfold hashOf
    simp [hpo, hpr]
  have hhq : ∀ mode, hashOf H read q mode
      = some (H (transcript mode (read q).content)) := by
    intro mode
    unfold hashOf
    simp [hqo, hqr]
  have hflp : fp.file_length = (read p).content.length := (hlen fp hfp p hpp).symm
  have hflq : fq.file_length = (read q).content.length := (hlen fq hfq q hqq).symm
  have hfpfq : fp ≠ fq := by
    intro e
    apply hpq
    have h1 : ([p] : List Path) = [q] := by rw [← hpeq, e, hqeq]
    simpa using h1
  refine ⟨recs, errs, hsome, ?_, ?_⟩
  · -- identical contents of positive length
    intro hceq hclen
    have hleq : fq.file_length = fp.file_length := by
      rw [hflp, hflq, hceq]
    have hfpb : fp ∈ bucketOf (successesOf fuel roots) fp.file_length :=
      bucketOf_mem.mpr ⟨hfp, rfl⟩
    have hfqb : fq ∈ bucketOf (successesOf fuel roots) fp.file_length :=
      bucketOf_mem.mpr ⟨hfq, hleq⟩
    have hn2 : 2 ≤ (bucketOf (successesOf fuel roots) fp.file_length).length :=
      two_le_length_of_two_mem hfpb hfqb hfpfq
    have hl0 : fp.file_length ≠ 0 := by omega
    have hlmem : fp.file_length ∈ bucketLengths (successesOf fuel roots) :=
      bucketLengths_mem hfp
    have hsameP : hashOf H read p .Partial = hashOf H read q .Partial := by
      rw [hhp, hhq, hceq]
    have hsameF : hashOf H read p .Full = hashOf H read q .Full := by
      rw [hhp, hhq, hceq]
    by_cases hble : fp.file_length ≤ BLOCK_SIZE
    · have hdiff := diff_eq_copy_branch H read fp.file_length
        (bucketOf (successesOf fuel roots) fp.file_length) hl0 hble hn2
      have hm1 : ∃ g1, g1 ∈ (partialPhase H read
            (bucketOf (successesOf fuel roots) fp.file_length)).map
              (fun f => { f with full_hash := f.partial_hash })
          ∧ g1.file_paths = fp.file_paths :=
        ⟨_, List.mem_map_of_mem _ (List.mem_map_of_mem _ hfpb), rfl⟩
      have hm2 : ∃ g2, g2 ∈ (partialPhase H read
            (bucketOf (successesOf fuel roots) fp.file_length)).map
              (fun f => { f with full_hash := f.partial_hash })
          ∧ g2.file_paths = fq.file_paths :=
        ⟨_, List.mem_map_of_mem _ (List.mem_map_of_mem _ hfqb), rfl⟩
      obtain ⟨g1, hg1, hg1p⟩ := hm1
      obtain ⟨g2, hg2, hg2p⟩ := hm2
      have hpm : p ∈ g1.file_paths := by rw [hg1p]; exact hpp
      have hqm : q ∈ g2.file_paths := by rw [hg2p]; exact hqq
      obtain ⟨_, hdet1⟩ := copy_key_det H read _ bucket_shape _ hg1 p hpm
      obtain ⟨_, hdet2⟩ := copy_key_det H read _ bucket_shape _ hg2 q hqm
      have hkeq : dkey g1 = dkey g2 := by
        rw [hdet1, hdet2, hsameP]
      obtain ⟨r, hr, hsub1, hsub2⟩ := dedupe_merge _ _ _ hg1 hg2 hkeq
        (by rw [hg1p, hpeq]; simp)
      refine ⟨r, ?_, hsub1 p hpm, hsub2 q hqm⟩
      exact (dd_mem hsome r).mpr ⟨fp.file_length, hlmem, _, hdiff, hr⟩
    · have hnn : ∀ f1 ∈ partialPhase H read
          (bucketOf (successesOf fuel roots) fp.file_length),
          f1.partial_hash ≠ none :=
        fun f1 hf1 => (partialPhase_shape H read _ bucket_shape
          (fun f hf p2 hp2 =>
            hread f (bucketOf_mem.mp hf).1 p2 hp2) f1 hf1).1
      have hdiff := diff_eq_full_branch H read fp.file_length
        (bucketOf (successesOf fuel roots) fp.file_length)
        (by omega) hn2 hnn
      have hm1 : fullStep H read (partialValues (partialPhase H read
            (bucketOf (successesOf fuel roots) fp.file_length)))
          ({ fp with partial_hash := generate_hash H read fp .Partial })
          ∈ fullPhase H read (partialPhase H read
            (bucketOf (successesOf fuel roots) fp.file_length)) :=
        List.mem_map_of_mem _ (List.mem_map_of_mem _ hfpb)
      have hm2 : fullStep H read (partialValues (partialPhase H read
            (bucketOf (successesOf fuel roots) fp.file_length)))
          ({ fq with partial_hash := generate_hash H read fq .Partial })
          ∈ fullPhase H read (partialPhase H read
            (bucketOf (successesOf fuel roots) fp.file_length)) :=
        List.mem_map_of_mem _ (List.mem_map_of_mem _ hfqb)
      have hpm : p ∈ (fullStep H read (partialValues (partialPhase H read
            (bucketOf (successesOf fuel roots) fp.file_length)))
          ({ fp with partial_hash := generate_hash H read fp .Partial
            })).file_paths := by
        rw [fullStep_paths]
        exact hpp
      have hqm : q ∈ (fullStep H read (partialValues (partialPhase H read
            (bucketOf (successesOf fuel roots) fp.file_length)))
          ({ fq with partial_hash := generate_hash H read fq .Partial
            })).file_paths := by
        rw [fullStep_paths]
        exact hqq
      obtain ⟨_, hdet1⟩ := full_key_det H read _ bucket_shape _ hm1 p hpm
      obtain ⟨_, hdet2⟩ := full_key_det H read _ bucket_shape _ hm2 q hqm
      have hkeq : dkey (fullStep H read (partialValues (partialPhase H read
            (bucketOf (successesOf fuel roots) fp.file_length)))
          ({ fp with partial_hash := generate_hash H read fp .Partial }))
          = dkey (fullStep H read (partialValues (partialPhase H read
            (bucketOf (successesOf fuel roots) fp.file_length)))
          ({ fq with partial_hash := generate_hash H read fq .Partial })) := by
        rw [hdet1, hdet2, hsameP, hsameF]
      obtain ⟨r, hr, hsub1, hsub2⟩ := dedupe_merge _ _ _ hm1 hm2 hkeq
        (by rw [fullStep_paths,
          show ({ fp with partial_hash := generate_hash H read fp .Partial }
            : Fileinfo).file_paths = fp.file_paths from rfl, hpeq]; simp)
      refine ⟨r, ?_, hsub1 p hpm, hsub2 q hqm⟩
      exact (dd_mem hsome r).mpr ⟨fp.file_length, hlmem, _, hdiff, hr⟩
  · -- differing contents
    intro hcne
    have memp : ∃ r ∈ recs, p ∈ r.file_paths := by
      have h1 : p ∈ pathsOf (successesOf fuel roots) :=
        mem_pathsOf.mpr ⟨fp, hfp, hpp⟩
      exact mem_pathsOf.mp ((dd_paths_perm hsome).mem_iff.mpr h1)
    have memq : ∃ r ∈ recs, q ∈ r.file_paths := by
      have h1 : q ∈ pathsOf (successesOf fuel roots) :=
        mem_pathsOf.mpr ⟨fq, hfq, hqq⟩
      exact mem_pathsOf.mp ((dd_paths_perm hsome).mem_iff.mpr h1)
    refine ⟨memp, memq, ?_⟩
    rintro r hr ⟨hpr2, hqr2⟩
    obtain ⟨l1, hl1, o1, ho1, hro1, ⟨f1, hf1s, hp1, hfl1⟩, hkey1⟩ :=
      dd_record_trace hsome r hr p hpr2
    obtain ⟨l2, hl2, o2, ho2, hro2, ⟨f2, hf2s, hq2, hfl2⟩, hkey2⟩ :=
      dd_record_trace hsome r hr q hqr2
    have hrl1 : r.file_length = l1 := diff_length_const H read l1 _ o1 ho1
      (fun f hf => (bucketOf_mem.mp hf).2) r hro1
    have hrl2 : r.file_length = l2 := diff_length_const H read l2 _ o2 ho2
      (fun f hf => (bucketOf_mem.mp hf).2) r hro2
    have hll : l2 = l1 := by rw [← hrl1, ← hrl2]
    subst hll
    have hclp : (read p).content.length = l2 := by
      rw [hlen f1 hf1s p hp1, hfl1]
    have hclq : (read q).content.length = l2 := by
      rw [hlen f2 hf2s q hq2, hfl2]
    have hkk : keyAt H read l2 (bucketOf (successesOf fuel roots) l2) p
        = keyAt H read l2 (bucketOf (successesOf fuel roots) l2) q := by
      rw [← hkey1, ← hkey2]
    obtain ⟨hf1pn, hf1fn, p1, hf1p⟩ := successesOf_shape f1 hf1s
    obtain ⟨hf2pn, hf2fn, q1, hf2p⟩ := successesOf_shape f2 hf2s
    have hp1eq : f1.file_paths = [p] := by
      rw [hf1p]
      rw [hf1p] at hp1
      have := List.mem_singleton.mp hp1
      rw [this]
    have hq1eq : f2.file_paths = [q] := by
      rw [hf2p]
      rw [hf2p] at hq2
      have := List.mem_singleton.mp hq2
      rw [this]
    have hf1f2 : f1 ≠ f2 := by
      intro e
      apply hpq
      have h1 : ([p] : List Path) = [q] := by rw [← hp1eq, e, hq1eq]
      simpa using h1
    unfold keyAt at hkk
    by_cases h0 : l2 = 0
    · apply hcne
      have e1 : (read p).content = [] := List.length_eq_zero.mp (by omega)
      have e2 : (read q).content = [] := List.length_eq_zero.mp (by omega)
      rw [e1, e2]
    · simp only [if_neg h0] at hkk
      by_cases hb1 : (bucketOf (successesOf fuel roots) l2).length = 1
      · have hm1 : f1 ∈ bucketOf (successesOf fuel roots) l2 :=
          bucketOf_mem.mpr ⟨hf1s, hfl1⟩
        have hm2 : f2 ∈ bucketOf (successesOf fuel roots) l2 :=
          bucketOf_mem.mpr ⟨hf2s, hfl2⟩
        have := two_le_length_of_two_mem hm1 hm2 hf1f2
        omega
      · simp only [if_neg hb1] at hkk
        obtain ⟨hpo2, hpr2b⟩ := hread f1 hf1s p hp1
        obtain ⟨hqo2, hqr2b⟩ := hread f2 hf2s q hq2
        have hsp : hashOf H read p .Partial
            = some (H (transcript .Partial (read p).content)) := by
          unfold hashOf
          simp [hpo2, hpr2b]
        have hsq : hashOf H read q .Partial
            = some (H (transcript .Partial (read q).content)) := by
          unfold hashOf
          simp [hqo2, hqr2b]
        by_cases hble : l2 ≤ BLOCK_SIZE
        · simp only [if_pos hble] at hkk
          obtain ⟨hfirst, _⟩ := Prod.mk.inj hkk
          rw [hsp, hsq] at hfirst
          have htr := hinj (Option.some.inj hfirst)
          exact hcne (transcript_partial_inj (by omega)
            (by rw [hclp]; exact le_trans hble block_le_buf) htr)
        · simp only [if_neg hble] at hkk
          obtain ⟨hfirst, hsecond⟩ := Prod.mk.inj hkk
          have hv : H (transcript .Partial (read p).content)
              = H (transcript .Partial (read q).content) := by
            rw [hsp, hsq] at hfirst
            exact Option.some.inj hfirst
          have hmm1 : ({ f1 with partial_hash := generate_hash H read f1 .Partial }
              : Fileinfo) ∈ partialPhase H read
                (bucketOf (successesOf fuel roots) l2) :=
            List.mem_map_of_mem _ (bucketOf_mem.mpr ⟨hf1s, hfl1⟩)
          have hmm2 : ({ f2 with partial_hash := generate_hash H read f2 .Partial }
              : Fileinfo) ∈ partialPhase H read
                (bucketOf (successesOf fuel roots) l2) :=
            List.mem_map_of_mem _ (bucketOf_mem.mpr ⟨hf2s, hfl2⟩)
          have hpv1 : ({ f1 with partial_hash := generate_hash H read f1 .Partial }
              : Fileinfo).partial_hash
              = some (H (transcript .Partial (read p).content)) := by
            show generate_hash H read f1 .Partial = _
            rw [generate_hash_eq_hashOf H read hp1eq .Partial, hsp]
          have hpv2 : ({ f2 with partial_hash := generate_hash H read f2 .Partial }
              : Fileinfo).partial_hash
              = some (H (transcript .Partial (read p).content)) := by
            show generate_hash H read f2 .Partial = _
            rw [generate_hash_eq_hashOf H read hq1eq .Partial, hsq, hv]
          have hne12 : ({ f1 with partial_hash := generate_hash H read f1 .Partial }
              : Fileinfo) ≠ { f2 with partial_hash := generate_hash H read f2 .Partial } := by
            intro e
            apply hpq
            have h2 := congrArg Fileinfo.file_paths e
            have h1 : ([p] : List Path) = [q] := by
              rw [← hp1eq, ← hq1eq]
              exact h2
            simpa using h1
          have hcnt : 2 ≤ (partialValues (partialPhase H read
              (bucketOf (successesOf fuel roots) l2))).count
                (H (transcript .Partial (read p).content)) :=
            two_le_count_partialValues hmm1 hmm2 hne12 hpv1 hpv2
          rw [hsp, hsq] at hsecond
          rw [← hv] at hsecond
          simp only [if_pos hcnt] at hsecond
          have hspF : hashOf H read p .Full
              = some (H (transcript .Full (read p).content)) := by
            unfold hashOf
            simp [hpo2, hpr2b]
          have hsqF : hashOf H read q .Full
              = some (H (transcript .Full (read q).content)) := by
            unfold hashOf
            simp [hqo2, hqr2b]
          rw [hspF, hsqF] at hsecond
          have htr := hinj (Option.some.inj hsecond)
          exact hcne (transcript_full_inj (by omega) htr)

theorem C1_duplicate_grouping_witness :
    ∃ recs errs, deduplicate_dirs encL readC1w 2 rootsC1w = some (recs, errs)
    ∧ ((readC1w [0, 0]).content = (readC1w [0, 1]).content →
        0 < (readC1w [0, 0]).content.length →
        ∃ r ∈ recs, [0, 0] ∈ r.file_paths ∧ [0, 1] ∈ r.file_paths)
    ∧ ((readC1w [0, 0]).content ≠ (readC1w [0, 1]).content →
        (∃ r ∈ recs, [0, 0] ∈ r.file_paths)
        ∧ (∃ r ∈ recs, [0, 1] ∈ r.file_paths)
        ∧ ∀ r ∈ recs, ¬([0, 0] ∈ r.file_paths ∧ [0, 1] ∈ r.file_paths)) :=
  C1_duplicate_grouping encL readC1w 2 rootsC1w encL_injective
    (by decide) (by decide)
    ⟨none, none, 1, [[0, 0]]⟩ ⟨none, none, 1, [[0, 1]]⟩ [0, 0] [0, 1]
    (by decide) (by decide) (by decide) (by decide) (by decide)

theorem C2_partition_correctness_witness :
    (∀ p : Path,
      (∃ r ∈ ([⟨some 0, some 0, 1, [[0, 0], [0, 1]]⟩] : List Fileinfo),
        p ∈ r.file_paths)
      ↔ (∃ f ∈ successesOf 2 rootsC2x, p ∈ f.file_paths))
    ∧ (∀ r1 ∈ ([⟨some 0, some 0, 1, [[0, 0], [0, 1]]⟩] : List Fileinfo),
        ∀ r2 ∈ ([⟨some 0, some 0, 1, [[0, 0], [0, 1]]⟩] : List Fileinfo),
        ∀ p, p ∈ r1.file_paths → p ∈ r2.file_paths → r1 = r2) :=
  C2_partition_correctness hashZero readC2x 2 rootsC2x
    [⟨some 0, some 0, 1, [[0, 0], [0, 1]]⟩] [] (by decide)
    (by
      have hs : successesOf 2 rootsC2x
          = [⟨none, none, 1, [[0, 0]]⟩, ⟨none, none, 1, [[0, 1]]⟩] := by decide
      intro f hf g hg p hp1 hp2
      rw [hs] at hf hg
      simp only [List.mem_cons, List.not_mem_nil, or_false] at hf hg
      rcases hf with rfl | rfl <;> rcases hg with rfl | rfl <;> rfl)

end DDH
